import Mathlib

/-!
# Verification of the answer-to-speech streaming pipeline

Shallow embedding of the core subsystem of `src/app/page.tsx`:

* text partitioning for speech synthesis (`partitionAnswerForTts`, `chunkTextForTts`),
* the sequential TTS prefetch queue (`createTtsPrefetcher`),
* the synthesis clients with retry/backoff (`fetchTtsBlob`, `fetchTtsForCaching`),
* the PCM→WAV container conversion (`pcmToWav`, `createSilenceBlob`),
* the persistent question/answer cache (`normalizeQuestion`, `getFromQaCache`,
  `trySaveToQaCache`).

Strings are modelled as `List Char`, byte buffers as `List Nat` (each entry a
byte value), and the cooperative (single-threaded, suspension-point) concurrency
of the prefetch queue as a labelled transition system whose atomic steps are the
synchronous segments between `await` points of the JavaScript source.
-/

namespace Vach

/-- JavaScript `\s` character class, restricted to the ASCII whitespace
characters that can occur in the modelled inputs. -/
def isWs (c : Char) : Bool :=
  c == ' ' || c == '\t' || c == '\n' || c == '\r' || c == '\x0b' || c == '\x0c'

/-- Model of `text.replace(/\s+/g, ' ')`: every maximal whitespace run is
replaced by a single space.  Written structurally (looking at two characters)
so that it evaluates by kernel reduction: a whitespace character is dropped if
the next character is whitespace too, hence each run contributes one `' '`. -/
def collapseRuns : List Char → List Char
  | [] => []
  | [c] => if isWs c then [' '] else [c]
  | c :: d :: cs =>
    if isWs c then
      if isWs d then collapseRuns (d :: cs) else ' ' :: collapseRuns (d :: cs)
    else c :: collapseRuns (d :: cs)

/-- Model of `String.prototype.trim()`: strip leading and trailing whitespace. -/
def jsTrim (s : List Char) : List Char :=
  ((s.dropWhile isWs).reverse.dropWhile isWs).reverse

/-- `fullText.replace(/\s+/g, ' ').trim()`, the whitespace collapse performed
at the top of both partition functions. -/
def collapse (s : List Char) : List Char :=
  jsTrim (collapseRuns s)

/-- Accumulator worker for `splitWs`.  `acc` holds the (reversed) word
currently being read. -/
def splitWsAux : List Char → List Char → List (List Char)
  | [], acc => if acc = [] then [] else [acc.reverse]
  | c :: cs, acc =>
    if isWs c then
      if acc = [] then splitWsAux cs [] else acc.reverse :: splitWsAux cs []
    else splitWsAux cs (c :: acc)

/-- Model of `text.split(/\s+/).filter(Boolean)`: the list of maximal
whitespace-free words of `s`, in order. -/
def splitWs (s : List Char) : List (List Char) :=
  splitWsAux s []

/-- Model of `words.join(' ')`. -/
def joinWords : List (List Char) → List Char
  | [] => []
  | [w] => w
  | w :: ws => w ++ ' ' :: joinWords ws

/-! ## Unit partitioners (`partitionAnswerForTts`, `chunkTextForTts`) -/

/-- `maxWordsPerPart` of `partitionAnswerForTts`. -/
def maxWordsPerPart : Nat := 100

/-- The 100-word blocks `words.slice(i, i + 100).join` loop of
`partitionAnswerForTts`, as successive `take`/`drop` blocks. -/
def chunkWords100 : List (List Char) → List (List (List Char))
  | [] => []
  | w :: ws => (w :: ws).take 100 :: chunkWords100 (ws.drop 99)
termination_by ws => ws.length
decreasing_by
  simp only [List.length_drop, List.length_cons]
  omega

/-- `partitionAnswerForTts(fullText)` from `src/app/page.tsx`: collapse
whitespace; empty text yields no parts; at most 100 words fit in one part,
otherwise the words are grouped into consecutive 100-word blocks. -/
def partitionAnswerForTts (fullText : List Char) : List (List Char) :=
  let text := collapse fullText
  if text = [] then []
  else
    let words := splitWs text
    if words.length ≤ maxWordsPerPart then [text]
    else (chunkWords100 words).map joinWords

/-- Sentence-final punctuation class `[.!?]` of the split regex. -/
def isSentEnd (c : Char) : Bool :=
  c == '.' || c == '!' || c == '?'

/-- Does the (reversed) accumulator end in sentence punctuation?  This is the
lookbehind `(?<=[.!?])` of the sentence split regex. -/
def sentEndHead : List Char → Bool
  | [] => false
  | p :: _ => isSentEnd p

/-- State machine for `text.split(/(?<=[.!?])\s+/)`.  `skipping` is true while
the scanner is inside the `\s+` run of the current separator; `acc` holds the
current segment reversed. -/
def splitSentencesAux : Bool → List Char → List Char → List (List Char)
  | _, [], acc => [acc.reverse]
  | skipping, c :: cs, acc =>
    if skipping && isWs c then splitSentencesAux true cs acc
    else if isWs c && sentEndHead acc then acc.reverse :: splitSentencesAux true cs []
    else splitSentencesAux false cs (c :: acc)

/-- `text.split(/(?<=[.!?])\s+/)` (the `.filter(Boolean)` is applied at the
call site, as in the source). -/
def splitSentences (s : List Char) : List (List Char) :=
  splitSentencesAux false s []

/-- Clause separator class `[,;]` of the clause split regex. -/
def isClauseSep (c : Char) : Bool :=
  c == ',' || c == ';'

/-- State machine for `sentence.split(/[,;]+\s*/)`.  `mode` records where the
scanner is inside the current separator match: `0` not in a separator, `1`
inside the `[,;]+` part, `2` inside the trailing `\s*` part. -/
def splitClausesAux : Nat → List Char → List Char → List (List Char)
  | _, [], acc => [acc.reverse]
  | mode, c :: cs, acc =>
    if mode = 1 && isClauseSep c then splitClausesAux 1 cs acc
    else if (mode = 1 || mode = 2) && isWs c then splitClausesAux 2 cs acc
    else if isClauseSep c then acc.reverse :: splitClausesAux 1 cs []
    else splitClausesAux 0 cs (c :: acc)

/-- `sentence.split(/[,;]+\s*/)`. -/
def splitClauses (s : List Char) : List (List Char) :=
  splitClausesAux 0 s []

/-- The word loop of `pushSmart`: greedily extend `buf` with the next word
while the candidate stays within `target`, otherwise flush `buf` (when
non-empty) and restart from the current word. -/
def pushSmartLoop (target : Nat) : List (List Char) → List Char → List (List Char)
  | [], buf => if buf = [] then [] else [buf]
  | w :: ws, buf =>
    let candidate := if buf = [] then w else buf ++ ' ' :: w
    if candidate.length ≤ target then pushSmartLoop target ws candidate
    else if buf = [] then pushSmartLoop target ws w
    else buf :: pushSmartLoop target ws w

/-- `pushSmart(piece)` of `chunkTextForTts`: trim the piece, drop it if empty,
emit it whole if within `target`, otherwise hard-split on word boundaries.
(On a trimmed non-empty string, `split(/\s+/)` produces no empty pieces, so it
coincides with `splitWs`.)  Returns the list of chunks pushed. -/
def pushSmart (target : Nat) (piece : List Char) : List (List Char) :=
  let trimmed := jsTrim piece
  if trimmed = [] then []
  else if trimmed.length ≤ target then [trimmed]
  else pushSmartLoop target (splitWs trimmed) []

/-- The clause-merging loop of `chunkTextForTts`: rejoin clauses with `", "`
while the candidate stays within `target`, flushing through `pushSmart`
otherwise.  Returns the chunks pushed by this sentence. -/
def clauseLoop (target : Nat) : List (List Char) → List Char → List (List Char)
  | [], current => if current = [] then [] else pushSmart target current
  | cl :: cls, current =>
    let candidate := if current = [] then cl else current ++ ',' :: ' ' :: cl
    if candidate.length ≤ target then clauseLoop target cls candidate
    else
      (if current = [] then [] else pushSmart target current)
        ++ pushSmart target cl ++ clauseLoop target cls []

/-- The punctuation-free fallback of `chunkTextForTts`: successive
`text.slice(i, i + target)` windows.  (The JavaScript loop does not terminate
when `target = 0`; the model returns `[]` there, and the only call site uses
`target = 100`.) -/
def sliceChunks (target : Nat) : List Char → List (List Char)
  | [] => []
  | c :: cs =>
    if target = 0 then []
    else (c :: cs).take target :: sliceChunks target (cs.drop (target - 1))
termination_by s => s.length
decreasing_by
  simp only [List.length_drop, List.length_cons]
  omega

/-- `chunkTextForTts(fullText, targetChunkSize)` from `src/app/page.tsx`:
sentence split, clause split for oversized sentences, word-boundary hard split
via `pushSmart`, and a character-window fallback when nothing was pushed. -/
def chunkTextForTts (fullText : List Char) (targetChunkSize : Nat) : List (List Char) :=
  let text := collapse fullText
  if text = [] then []
  else
    let sentences := (splitSentences text).filter (fun s => !s.isEmpty)
    let chunks :=
      (sentences.map (fun sentence =>
        if sentence.length ≤ targetChunkSize then [sentence]
        else
          clauseLoop targetChunkSize
            ((splitClauses sentence).filter (fun s => !s.isEmpty)) [])).flatten
    if chunks = [] then sliceChunks targetChunkSize text else chunks

/-! ## PCM → WAV conversion (`pcmToWav`, `createSilenceBlob`) -/

/-- `DataView.setUint16(offset, v, true)`: two little-endian bytes. -/
def u16le (v : Nat) : List Nat :=
  [v % 256, v / 256 % 256]

/-- `DataView.setUint32(offset, v, true)`: four little-endian bytes. -/
def u32le (v : Nat) : List Nat :=
  [v % 256, v / 256 % 256, v / 65536 % 256, v / 16777216 % 256]

/-- `DataView.setUint32(offset, v, false)`: four big-endian bytes. -/
def u32be (v : Nat) : List Nat :=
  [v / 16777216 % 256, v / 65536 % 256, v / 256 % 256, v % 256]

/-- The 44-byte RIFF/WAVE header written by `pcmToWav`, field by field in
offset order. -/
def wavHeader (dataLen sampleRate numChannels bitsPerSample : Nat) : List Nat :=
  let byteRate := sampleRate * numChannels * bitsPerSample / 8
  let blockAlign := numChannels * bitsPerSample / 8
  u32be 0x52494646 ++                -- offset 0:  "RIFF"
  u32le (36 + dataLen) ++            -- offset 4:  file length
  u32be 0x57415645 ++                -- offset 8:  "WAVE"
  u32be 0x666D7420 ++                -- offset 12: "fmt "
  u32le 16 ++                        -- offset 16: format chunk length
  u16le 1 ++                         -- offset 20: sample format (PCM)
  u16le numChannels ++               -- offset 22: channel count
  u32le sampleRate ++                -- offset 24: sample rate
  u32le byteRate ++                  -- offset 28: byte rate
  u16le blockAlign ++                -- offset 32: block align
  u16le bitsPerSample ++             -- offset 34: bits per sample
  u32be 0x64617461 ++                -- offset 36: "data"
  u32le dataLen                      -- offset 40: data chunk length

/-- `pcmToWav(pcmData, sampleRate, numChannels, bitsPerSample)`: the header
followed by the PCM bytes.  The source's default arguments
(`24000, 1, 16`) are passed explicitly by the theorems. -/
def pcmToWav (pcmData : List Nat) (sampleRate numChannels bitsPerSample : Nat) : List Nat :=
  wavHeader pcmData.length sampleRate numChannels bitsPerSample ++ pcmData

/-- `createSilenceBlob(durationMs)`: 16-bit mono zero samples at 24 kHz,
wrapped in a WAV container.  `Math.floor((durationMs / 1000) * sampleRate)`
is exact integer arithmetic here, hence `durationMs * sampleRate / 1000`. -/
def createSilenceBlob (durationMs : Nat) : List Nat :=
  let sampleRate := 24000
  let samples := max 1 (durationMs * sampleRate / 1000)
  pcmToWav (List.replicate (samples * 2) 0) sampleRate 1 16

/-! ## Synthesis clients (`fetchTtsBlob`, `fetchTtsForCaching`)

The `/api/tts` endpoint is an external collaborator; its possible answers are
modelled by `TtsResponse`.  Time is a `Nat` (epoch milliseconds); a network
round-trip is modelled as instantaneous, so only the explicit `setTimeout`
waits advance the clock.  `Math.random() * 500` is abstracted by a jitter
oracle `jit` (the theorems constrain it to the real range `[500, 1000]`). -/

/-- One answer of the `/api/tts` collaborator, as distinguished by the client
code: success payload, HTTP 429 with optional `retryAfterMs`, any other
non-success HTTP status (the client throws an `Error` for it), or a rejected
`fetch` (network-level fault). -/
inductive TtsResponse where
  | ok (audio : List Nat) (mimeType : List Char) (originalMimeType : Option (List Char))
  | rateLimited (retryAfterMs : Option Nat)
  | httpError
  | networkFault
deriving DecidableEq, Repr

/-- `pat` occurs as a contiguous substring of `s` (JS `String.includes`). -/
def containsSub (pat : List Char) : List Char → Bool
  | [] => pat.isPrefixOf ([] : List Char)
  | c :: cs => pat.isPrefixOf (c :: cs) || containsSub pat cs

/-- Model of `atob`: the base64 payload is represented directly by its decoded
bytes, so the platform base64 decoder is the identity here. -/
def base64ToBlob (bytes : List Nat) (mimeType : List Char) : List Nat × List Char :=
  (bytes, mimeType)

/-- The success-path conversion shared by both clients: raw PCM payloads
(original MIME type mentioning `L16` or `pcm`) are wrapped via
`pcmToWav(..., 24000)`, anything else is passed through `base64ToBlob`. -/
def decodeBlob (audio : List Nat) (mimeType : List Char)
    (originalMimeType : Option (List Char)) : List Nat × List Char :=
  match originalMimeType with
  | some o =>
    if containsSub ('L' :: '1' :: '6' :: []) o || containsSub ('p' :: 'c' :: 'm' :: []) o then
      (pcmToWav audio 24000 1 16, ('a' :: 'u' :: 'd' :: 'i' :: 'o' :: '/' :: 'w' :: 'a' :: 'v' :: []))
    else base64ToBlob audio mimeType
  | none => base64ToBlob audio mimeType

/-- Result of a `fetchTtsBlob` call: the returned blob (`none` when the final
`throw lastErr` is reached), the clock and shared cooldown afterwards, and the
times at which the network requests were issued. -/
structure FetchResult where
  outcome : Option (List Nat × List Char)
  now : Nat
  cooldownUntil : Nat
  log : List Nat
deriving DecidableEq, Repr

/-- `maxAttempts` of `fetchTtsBlob`. -/
def maxAttempts : Nat := 4

/-- The `while (attempt < maxAttempts)` loop of `fetchTtsBlob`, with
`rem = maxAttempts - attempt` as structural fuel.  Each iteration: bump the
attempt counter, wait out the shared cooldown (`t = max now cool` is the
request time), issue the request, then branch exactly as the source does —
429 responses install and wait out a new cooldown and `continue`; any other
error is caught and retried after the jittered delay; success returns. -/
def fetchTtsBlobLoop (resp : Nat → TtsResponse) (jit : Nat → Nat) :
    Nat → Nat → Nat → Nat → List Nat → FetchResult
  | 0, _, now, cool, log => ⟨none, now, cool, log⟩
  | rem + 1, attempt, now, cool, log =>
    let a := attempt + 1
    let t := max now cool
    match resp a with
    | .ok audio mime orig => ⟨some (decodeBlob audio mime orig), t, cool, log ++ [t]⟩
    | .rateLimited rms =>
      let waitMs := rms.getD (6000 * a)
      fetchTtsBlobLoop resp jit rem a (t + waitMs) (t + waitMs) (log ++ [t])
    | .httpError => fetchTtsBlobLoop resp jit rem a (t + jit a) cool (log ++ [t])
    | .networkFault => fetchTtsBlobLoop resp jit rem a (t + jit a) cool (log ++ [t])

/-- `fetchTtsBlob(textChunk)` for a given response oracle (`resp a` is the
server's answer to the `a`-th attempt), jitter oracle, start time and shared
cooldown (`ttsCooldownUntilRef.current`). -/
def fetchTtsBlob (resp : Nat → TtsResponse) (jit : Nat → Nat) (now cool : Nat) : FetchResult :=
  fetchTtsBlobLoop resp jit maxAttempts 0 now cool []

/-- Result of a `fetchTtsForCaching` call: the returned
`{blob, audioBase64, mimeType, originalMimeType}` record (`none` when the
call throws), and the time at which its single network request was issued. -/
structure CacheFetchResult where
  outcome : Option ((List Nat × List Char) × List Nat × List Char × Option (List Char))
  requestTime : Nat
deriving DecidableEq, Repr

/-- `fetchTtsForCaching(textChunk)`: a single fetch with no retry loop.  The
request is issued immediately at `now`; unlike `fetchTtsBlob`, the shared
cooldown `cool` is never consulted (the source reads neither
`ttsCooldownUntilRef` nor any retry state here). -/
def fetchTtsForCaching (resp : TtsResponse) (now cool : Nat) : CacheFetchResult :=
  match resp with
  | .ok audio mime orig => ⟨some (decodeBlob audio mime orig, audio, mime, orig), now⟩
  | .rateLimited _ => ⟨none, now⟩
  | .httpError => ⟨none, now⟩
  | .networkFault => ⟨none, now⟩

/-! ## The prefetch queue (`createTtsPrefetcher`)

The prefetcher for `n` chunks is modelled as a labelled transition system.
JavaScript is single-threaded, so the only interleaving points are the
`await` suspensions; the one `await` of the driver loop is the
`fetchTtsForCaching` call.  Hence the atomic steps are:

* `resume` — the in-flight fetch settles and the driver runs synchronously up
  to its next `await` (push the blob or, on error, the silence blob; advance
  `index`; resolve a waiting consumer; re-check the `while` condition and
  either start the next fetch or flush the remaining waiters and return);
* `nextCall` — the single consumer calls `next()` (shift the ready-buffer, or
  enqueue a waiter when it is empty);
* `cancel` — `cancel()` sets the `cancelled` flag.

The fetch outcome oracle `f` tells whether the fetch of chunk `i` succeeds;
`Resource.audio i` stands for the blob synthesized from `chunks[i]` and
`Resource.silence` for `createSilenceBlob(200)`.  (The inner
`catch (_)` branch of the source is unreachable: `createSilenceBlob` is a
pure total function and cannot throw.) -/

/-- An audio resource delivered by the prefetch queue. -/
inductive Resource where
  | audio (i : Nat)
  | silence
deriving DecidableEq, Repr

/-- The resource produced for chunk `i`: its synthesized audio when the fetch
succeeds, the silence placeholder otherwise. -/
def resourceOf (f : Nat → Bool) (i : Nat) : Resource :=
  if f i then .audio i else .silence

/-- The closure state of one `createTtsPrefetcher(chunks)` call, together
with observation history.  `cancelled`, `index`, `queue` and `waiters` are
the source's variables (`waiters` keeps only the count: the single consumer
contract means the resolvers need not be distinguished); `fetching` records
that the driver is suspended in its `await fetchTtsForCaching(...)`;
`driverDone` that `fetchSequentially` has returned.  `delivered` is the
history of values handed to consumers (`none` = the JS `null`), `started`
the chunk indices whose fetch was started, in order, and `completed` the
number of fetches that have settled. -/
structure PrefState where
  cancelled : Bool
  fetching : Bool
  driverDone : Bool
  index : Nat
  queue : List Resource
  waiters : Nat
  delivered : List (Option Resource)
  started : List Nat
  completed : Nat
deriving DecidableEq, Repr

/-- Transition labels of the prefetcher system. -/
inductive PLabel where
  | resume
  | nextCall
  | cancel
deriving DecidableEq, Repr

/-- `if (waiters.length > 0) { const resolve = waiters.shift();
resolve(queue.shift() || null); }` — executed by the driver right after
pushing a blob. -/
def deliverNext (s : PrefState) : PrefState :=
  if s.waiters = 0 then s
  else
    { s with
      waiters := s.waiters - 1
      delivered := s.delivered ++ [s.queue.head?]
      queue := s.queue.tail }

/-- The `while (waiters.length > 0) resolve(null)` flush at the end of
`fetchSequentially` (reached only on normal loop exit). -/
def flushWaiters (s : PrefState) : PrefState :=
  { s with
    delivered := s.delivered ++ List.replicate s.waiters none
    waiters := 0 }

/-- The driver's `while (!cancelled && index < chunks.length)` check: either
start the fetch of `chunks[index]` (suspending at the `await`), or exit the
loop, flush the waiters with `null` and return. -/
def loopCheck (n : Nat) (s : PrefState) : PrefState :=
  if s.cancelled = false ∧ s.index < n then
    { s with fetching := true, started := s.started ++ [s.index] }
  else
    { flushWaiters s with driverDone := true }

/-- The state right after `createTtsPrefetcher(chunks)` returns: all fields
zeroed, then the synchronous prologue of `fetchSequentially()` has run up to
its first suspension point. -/
def initPrefetcher (n : Nat) : PrefState :=
  loopCheck n ⟨false, false, false, 0, [], 0, [], [], 0⟩

/-- One atomic step of the prefetcher system (see the section comment). -/
def step (n : Nat) (f : Nat → Bool) (s : PrefState) : PLabel → PrefState
  | .resume =>
    if s.fetching = true then
      let s1 := { s with fetching := false, completed := s.completed + 1 }
      if s1.cancelled = true then
        -- `if (cancelled) return;` — note: the pending waiters are NOT flushed
        { s1 with driverDone := true }
      else
        let s2 := { s1 with
                    queue := s1.queue ++ [resourceOf f s.index]
                    index := s.index + 1 }
        loopCheck n (deliverNext s2)
    else s
  | .nextCall =>
    match s.queue with
    | r :: rest => { s with queue := rest, delivered := s.delivered ++ [some r] }
    | [] => { s with waiters := s.waiters + 1 }
  | .cancel => { s with cancelled := true }

/-- Run a trace of labels from the freshly constructed prefetcher. -/
def run (n : Nat) (f : Nat → Bool) (tr : List PLabel) : PrefState :=
  tr.foldl (step n f) (initPrefetcher n)

/-- Invariant of cancellation-free executions of the prefetcher.  It pins
down: fetches are started in strict index order with no gaps (`ord`), at most
one fetch is in flight (`comp_le`, `one_flight`, `fetch_iff`), and the values
handed out followed by the ready-buffer are exactly the resources of the
completed chunks, in index order (`deliv`). -/
structure PrefInv (n : Nat) (f : Nat → Bool) (s : PrefState) : Prop where
  canc : s.cancelled = false
  idx : s.index = s.completed
  ord : s.started = List.range s.started.length
  comp_le : s.completed ≤ s.started.length
  one_flight : s.started.length ≤ s.completed + 1
  fetch_iff : s.fetching = true ↔ s.started.length = s.completed + 1
  started_le : s.started.length ≤ n
  active : s.fetching = true ∨ s.driverDone = true
  wq : s.waiters = 0 ∨ s.queue = []
  deliv : s.delivered.filterMap id ++ s.queue = (List.range s.completed).map (resourceOf f)
  done_comp : s.driverDone = true → s.fetching = false ∧ s.completed = n

/-! ## The persistent question/answer cache

`localStorage` under the fixed key is modelled by `Stored`: the key can be
absent, hold an unparsable string (`JSON.parse` throws), or hold a parsed
entry list.  `JSON.stringify`/`JSON.parse` of well-formed data are inverse,
so a written list is read back as itself. -/

/-- `CachedTtsPart`: one cached audio unit (base64 payload modelled as the
raw string). -/
structure CachedTtsPart where
  audio : List Char
  mimeType : List Char
  originalMimeType : Option (List Char)
deriving DecidableEq, Repr

/-- `QaCacheEntry`: question, answer and the ordered audio parts. -/
structure QaCacheEntry where
  question : List Char
  answer : List Char
  ttsParts : List CachedTtsPart
deriving DecidableEq, Repr

/-- The value held by `localStorage` under `QA_CACHE_KEY`. -/
inductive Stored where
  | missing
  | corrupt
  | vals (entries : List QaCacheEntry)
deriving DecidableEq, Repr

/-- The Gujarati-specific characters replaced by a space in
`normalizeQuestion` (`[।॥ઃઽૠૡ૰૱]`). -/
def guSpecial (c : Char) : Bool :=
  c == '।' || c == '॥' || c == 'ઃ' || c == 'ઽ' ||
  c == 'ૠ' || c == 'ૡ' || c == '૰' || c == '૱'

/-- The `[\p{P}\p{S}]` character class of `normalizeQuestion`, restricted to
the ASCII range (every ASCII punctuation/symbol character). -/
def isPunctOrSym (c : Char) : Bool :=
  ('!' ≤ c && c ≤ '/') || (':' ≤ c && c ≤ '@') ||
  ('[' ≤ c && c ≤ '\x60') || ('\x7b' ≤ c && c ≤ '~')

/-- `normalizeQuestion(q)`: NFKC canonicalization (a Unicode library
primitive, modelled as the identity — the modelled inputs are NFKC-normal),
Gujarati specials to spaces, the Gujarati-block identity substitution
(`replace(/[઀-૿]/g, ch => ch)` replaces each character by itself),
punctuation/symbols to spaces, whitespace collapse, trim, lower-case. -/
def normalizeQuestion (q : List Char) : List Char :=
  let s1 := q.map (fun c => if guSpecial c then ' ' else c)
  let s2 := s1.map (fun c => if isPunctOrSym c then ' ' else c)
  let s3 := jsTrim (collapseRuns s2)
  s3.map Char.toLower

/-- `QA_CACHE_LIMIT`. -/
def QA_CACHE_LIMIT : Nat := 20

/-- `getFromQaCache(question)`: read-only lookup.  The pair's second
component is the storage after the call — returned explicitly so the
frame property (the lookup never writes) is a statement, not a convention.
A missing key returns `null`; an unparsable value throws inside the `try`
and the `catch` returns `null`. -/
def getFromQaCache (question : List Char) (store : Stored) :
    Option QaCacheEntry × Stored :=
  match store with
  | .missing => (none, store)
  | .corrupt => (none, store)
  | .vals arr =>
    (arr.find? (fun e => normalizeQuestion e.question == normalizeQuestion question), store)

/-- `trySaveToQaCache(question, answer, ttsParts, append)`.  On an
unparsable stored value `JSON.parse` throws and the outer `catch` ignores
the write, leaving the storage unchanged.  The `| none` fallback of the
indexed access is unreachable (`findIdx?` returns in-bounds indices). -/
def trySaveToQaCache (question answer : List Char) (ttsParts : List CachedTtsPart)
    (append : Bool) (store : Stored) : Stored :=
  let entry : QaCacheEntry := ⟨question, answer, ttsParts⟩
  match store with
  | .corrupt => .corrupt
  | .missing =>
    let arr := [entry]
    .vals (if QA_CACHE_LIMIT < arr.length then arr.take QA_CACHE_LIMIT else arr)
  | .vals arr =>
    let key := normalizeQuestion question
    match arr.findIdx? (fun e => normalizeQuestion e.question == key) with
    | some idx =>
      if append && !ttsParts.isEmpty then
        match arr[idx]? with
        | some existing =>
          let upd : QaCacheEntry :=
            ⟨existing.question,
             if answer.isEmpty then existing.answer else answer,
             existing.ttsParts ++ ttsParts⟩
          .vals ((upd :: arr.eraseIdx idx).take QA_CACHE_LIMIT)
        | none => .vals arr
      else
        let arr2 := entry :: arr.eraseIdx idx
        .vals (if QA_CACHE_LIMIT < arr2.length then arr2.take QA_CACHE_LIMIT else arr2)
    | none =>
      let arr2 := entry :: arr
      .vals (if QA_CACHE_LIMIT < arr2.length then arr2.take QA_CACHE_LIMIT else arr2)

/-- The entry list held by the storage (empty for absent/corrupt values). -/
def storedEntries : Stored → List QaCacheEntry
  | .vals arr => arr
  | _ => []

/-- Well-formedness of the stored entry list: bounded by the capacity and at
most one entry per normalized question. -/
def wfCache (arr : List QaCacheEntry) : Prop :=
  arr.length ≤ QA_CACHE_LIMIT ∧
  arr.Pairwise (fun a b => normalizeQuestion a.question ≠ normalizeQuestion b.question)

instance (arr : List QaCacheEntry) : Decidable (wfCache arr) := by
  unfold wfCache; infer_instance

/-- A full 20-entry cache with pairwise distinct single-letter questions,
used to witness the eviction behaviour at capacity. -/
def demoArr : List QaCacheEntry :=
  (List.range 20).map (fun i => ⟨[Char.ofNat (97 + i)], [], []⟩)

/-- A two-entry cache whose second entry already holds one audio part, used
to witness the append behaviour. -/
def demoArr8 : List QaCacheEntry :=
  [⟨['p'], ['x'], []⟩, ⟨['q'], ['y'], [⟨['d'], ['m'], none⟩]⟩]

/-! ## Lemmas: the prefetch queue invariant -/

theorem filterMap_id_replicate_none {α : Type} (k : Nat) :
    (List.replicate k (none : Option α)).filterMap id = [] := by
  induction k with
  | zero => rfl
  | succ k ih => simp [List.replicate_succ, ih]

theorem prefInv_init (n : Nat) (f : Nat → Bool) : PrefInv n f (initPrefetcher n) := by
  by_cases hn : 0 < n
  · have h1 : initPrefetcher n = ⟨false, true, false, 0, [], 0, [], [0], 0⟩ := by
      unfold initPrefetcher loopCheck
      rw [if_pos ⟨rfl, hn⟩]
      rfl
    rw [h1]
    exact ⟨rfl, rfl, by decide, by decide, by decide, by simp, by show 1 ≤ n; omega,
           Or.inl rfl, Or.inl rfl, rfl, by simp⟩
  · have hn0 : n = 0 := by omega
    subst hn0
    have h1 : initPrefetcher 0 = ⟨false, false, true, 0, [], 0, [], [], 0⟩ := by
      unfold initPrefetcher loopCheck flushWaiters
      rw [if_neg (by simp)]
      rfl
    rw [h1]
    exact ⟨rfl, rfl, by decide, by decide, by decide, by simp, by decide,
           Or.inr rfl, Or.inl rfl, rfl, fun _ => ⟨rfl, rfl⟩⟩

theorem prefInv_step (n : Nat) (f : Nat → Bool) (s : PrefState) (l : PLabel)
    (h : PrefInv n f s) (hl : l ≠ PLabel.cancel) : PrefInv n f (step n f s l) := by
  obtain ⟨canc, idx, ord, comp_le, one_flight, fetch_iff, started_le, active, wq, deliv,
          done_comp⟩ := h
  obtain ⟨sc, sf, sd, si, sq, sw, sdel, sst, si⟩ := s
  simp only at canc idx ord comp_le one_flight fetch_iff started_le active wq deliv done_comp
  subst canc
  subst idx
  cases l with
  | cancel => exact absurd rfl hl
  | nextCall =>
    cases sq with
    | nil =>
      exact ⟨rfl, rfl, ord, comp_le, one_flight, fetch_iff, started_le, active,
             Or.inr rfl, deliv, done_comp⟩
    | cons r rest =>
      have hw : sw = 0 := by
        rcases wq with hw | hq2
        · exact hw
        · cases hq2
      refine ⟨rfl, rfl, ord, comp_le, one_flight, fetch_iff, started_le, active,
              Or.inl hw, ?_, done_comp⟩
      show (sdel ++ [some r]).filterMap id ++ rest = (List.range si).map (resourceOf f)
      rw [List.filterMap_append, ← deliv]
      simp
  | resume =>
    cases sf with
    | false =>
      exact ⟨rfl, rfl, ord, comp_le, one_flight, fetch_iff, started_le, active, wq,
             deliv, done_comp⟩
    | true =>
      have hsl : sst.length = si + 1 := fetch_iff.mp rfl
      cases sd with
      | true => exact absurd (done_comp rfl).1 (by simp)
      | false =>
        have hst : sst = List.range (si + 1) := by rw [ord, hsl]
        cases sw with
        | zero =>
          show PrefInv n f
            (loopCheck n ⟨false, false, false, si + 1,
                          sq ++ [resourceOf f si], 0, sdel, sst, si + 1⟩)
          have hdeliv2 : sdel.filterMap id ++ (sq ++ [resourceOf f si])
              = (List.range (si + 1)).map (resourceOf f) := by
            rw [← List.append_assoc, deliv, List.range_succ]
            simp
          by_cases hlt : si + 1 < n
          · rw [loopCheck, if_pos ⟨rfl, hlt⟩]
            refine ⟨rfl, rfl, ?_, ?_, ?_, ?_, ?_, Or.inl rfl, Or.inl rfl, hdeliv2, by simp⟩
            · show sst ++ [si + 1] = List.range (sst ++ [si + 1]).length
              rw [hst]
              simp [← List.range_succ, hsl]
            · show si + 1 ≤ (sst ++ [si + 1]).length
              simp
              omega
            · show (sst ++ [si + 1]).length ≤ si + 1 + 1
              simp
              omega
            · show (true = true) ↔ (sst ++ [si + 1]).length = si + 1 + 1
              simp
              omega
            · show (sst ++ [si + 1]).length ≤ n
              simp
              omega
          · rw [loopCheck, if_neg (by simpa using hlt), flushWaiters]
            refine ⟨rfl, rfl, ord, by show si + 1 ≤ sst.length; omega,
                    by show sst.length ≤ si + 1 + 1; omega,
                    by show (false = true) ↔ sst.length = si + 1 + 1; simp; omega,
                    started_le, Or.inr rfl, Or.inl rfl, ?_,
                    fun _ => ⟨rfl, by show si + 1 = n; omega⟩⟩
            show (sdel ++ List.replicate 0 none).filterMap id ++ (sq ++ [resourceOf f si])
                = (List.range (si + 1)).map (resourceOf f)
            simpa using hdeliv2
        | succ w =>
          have hq0 : sq = [] := by
            rcases wq with hw | hq0
            · cases hw
            · exact hq0
          subst hq0
          show PrefInv n f
            (loopCheck n (deliverNext ⟨false, false, false, si + 1,
                          [resourceOf f si], w + 1, sdel, sst, si + 1⟩))
          rw [deliverNext, if_neg (by simp)]
          have hdeliv2 : (sdel ++ [some (resourceOf f si)]).filterMap id
              = (List.range (si + 1)).map (resourceOf f) := by
            rw [List.filterMap_append, List.range_succ]
            simp only [List.append_nil] at deliv
            rw [deliv]
            simp
          by_cases hlt : si + 1 < n
          · rw [loopCheck, if_pos ⟨rfl, hlt⟩]
            refine ⟨rfl, rfl, ?_, ?_, ?_, ?_, ?_, Or.inl rfl, Or.inr rfl, ?_, by simp⟩
            · show sst ++ [si + 1] = List.range (sst ++ [si + 1]).length
              rw [hst]
              simp [← List.range_succ, hsl]
            · show si + 1 ≤ (sst ++ [si + 1]).length
              simp
              omega
            · show (sst ++ [si + 1]).length ≤ si + 1 + 1
              simp
              omega
            · show (true = true) ↔ (sst ++ [si + 1]).length = si + 1 + 1
              simp
              omega
            · show (sst ++ [si + 1]).length ≤ n
              simp
              omega
            · show (sdel ++ [some (resourceOf f si)]).filterMap id ++ []
                  = (List.range (si + 1)).map (resourceOf f)
              simpa using hdeliv2
          · rw [loopCheck, if_neg (by simpa using hlt), flushWaiters]
            refine ⟨rfl, rfl, ord, by show si + 1 ≤ sst.length; omega,
                    by show sst.length ≤ si + 1 + 1; omega,
                    by show (false = true) ↔ sst.length = si + 1 + 1; simp; omega,
                    started_le, Or.inr rfl, Or.inr rfl, ?_,
                    fun _ => ⟨rfl, by show si + 1 = n; omega⟩⟩
            show ((sdel ++ [some (resourceOf f si)])
                    ++ List.replicate (w + 1 - 1) none).filterMap id ++ []
                = (List.range (si + 1)).map (resourceOf f)
            rw [List.append_nil, List.filterMap_append, filterMap_id_replicate_none,
                List.append_nil, hdeliv2]

theorem prefInv_foldl (n : Nat) (f : Nat → Bool) (tr : List PLabel) :
    ∀ s, PrefInv n f s → (∀ l ∈ tr, l ≠ PLabel.cancel) →
      PrefInv n f (tr.foldl (step n f) s) := by
  induction tr with
  | nil => exact fun s hs _ => hs
  | cons l tr ih =>
    intro s hs h
    exact ih (step n f s l) (prefInv_step n f s l hs (h l (by simp)))
      (fun l' hl' => h l' (by simp [hl']))

theorem prefInv_run (n : Nat) (f : Nat → Bool) (tr : List PLabel)
    (h : PLabel.cancel ∉ tr) : PrefInv n f (run n f tr) :=
  prefInv_foldl n f tr (initPrefetcher n) (prefInv_init n f)
    (fun l hl => by rintro rfl; exact h hl)

/-- Driver-only executions: after `k ≤ n` fetches have settled, the queue
holds the first `k` resources in index order and the driver is fetching chunk
`k` (or has finished when `k = n`). -/
theorem run_resumes (n : Nat) (f : Nat → Bool) :
    ∀ k, k ≤ n →
      run n f (List.replicate k PLabel.resume)
        = if k < n then
            ⟨false, true, false, k, (List.range k).map (resourceOf f), 0, [],
             List.range (k + 1), k⟩
          else
            ⟨false, false, true, k, (List.range k).map (resourceOf f), 0, [],
             List.range k, k⟩ := by
  intro k
  induction k with
  | zero =>
    intro _
    by_cases hn : 0 < n
    · rw [if_pos hn]
      show initPrefetcher n = _
      unfold initPrefetcher loopCheck
      rw [if_pos ⟨rfl, hn⟩]
      rfl
    · rw [if_neg hn]
      show initPrefetcher n = _
      unfold initPrefetcher loopCheck flushWaiters
      rw [if_neg (by simpa using hn)]
      rfl
  | succ k ih =>
    intro hk
    have hkn : k < n := by omega
    have hrun := ih (by omega)
    rw [if_pos hkn] at hrun
    rw [List.replicate_succ', run, List.foldl_append]
    rw [show List.foldl (step n f) (initPrefetcher n) (List.replicate k PLabel.resume)
          = run n f (List.replicate k PLabel.resume) from rfl, hrun]
    show loopCheck n (deliverNext
        ⟨false, false, false, k + 1,
         (List.range k).map (resourceOf f) ++ [resourceOf f k], 0, [],
         List.range (k + 1), k + 1⟩) = _
    rw [deliverNext, if_pos rfl]
    by_cases hlt : k + 1 < n
    · rw [loopCheck, if_pos ⟨rfl, hlt⟩, if_pos hlt]
      simp [List.range_succ]
    · rw [loopCheck, if_neg (by simpa using hlt), if_neg hlt, flushWaiters]
      simp [List.range_succ]

/-- C1: in every cancellation-free run of the prefetch queue, synthesis
fetches are started strictly in index order with no gaps (`started` is an
initial range), at most one fetch is in flight at any instant (the number of
started fetches never exceeds the completed ones by more than one), and the
resources handed out by `next()` followed by the ready-buffer are exactly the
resources of the completed chunks in index order — so `next()` delivers in
strict index order and never delivers the resource of unit `k + 1` before the
fetch of unit `k` (indeed of unit `k + 1` itself) has completed. -/
theorem c1_prefetch_order (n : Nat) (f : Nat → Bool) (tr : List PLabel)
    (h : PLabel.cancel ∉ tr) :
    (run n f tr).started = List.range (run n f tr).started.length
    ∧ (run n f tr).completed ≤ (run n f tr).started.length
    ∧ (run n f tr).started.length ≤ (run n f tr).completed + 1
    ∧ (run n f tr).delivered.filterMap id ++ (run n f tr).queue
        = (List.range (run n f tr).completed).map (resourceOf f)
    ∧ ((run n f tr).delivered.filterMap id).length ≤ (run n f tr).completed := by
  obtain ⟨_, _, ord, comp_le, one_flight, _, _, _, _, deliv, _⟩ := prefInv_run n f tr h
  refine ⟨ord, comp_le, one_flight, deliv, ?_⟩
  have := congrArg List.length deliv
  simp only [List.length_append, List.length_map, List.length_range] at this
  omega

theorem c1_prefetch_order_witness :
    (run 2 (fun _ => true) [PLabel.nextCall, PLabel.resume, PLabel.resume]).started
      = List.range (run 2 (fun _ => true)
          [PLabel.nextCall, PLabel.resume, PLabel.resume]).started.length
    ∧ (run 2 (fun _ => true) [PLabel.nextCall, PLabel.resume, PLabel.resume]).completed
      ≤ (run 2 (fun _ => true)
          [PLabel.nextCall, PLabel.resume, PLabel.resume]).started.length
    ∧ (run 2 (fun _ => true)
          [PLabel.nextCall, PLabel.resume, PLabel.resume]).started.length
      ≤ (run 2 (fun _ => true) [PLabel.nextCall, PLabel.resume, PLabel.resume]).completed + 1
    ∧ (run 2 (fun _ => true)
          [PLabel.nextCall, PLabel.resume, PLabel.resume]).delivered.filterMap id
        ++ (run 2 (fun _ => true) [PLabel.nextCall, PLabel.resume, PLabel.resume]).queue
      = (List.range (run 2 (fun _ => true)
          [PLabel.nextCall, PLabel.resume, PLabel.resume]).completed).map
            (resourceOf (fun _ => true))
    ∧ ((run 2 (fun _ => true)
          [PLabel.nextCall, PLabel.resume, PLabel.resume]).delivered.filterMap id).length
      ≤ (run 2 (fun _ => true) [PLabel.nextCall, PLabel.resume, PLabel.resume]).completed :=
  c1_prefetch_order 2 (fun _ => true) [PLabel.nextCall, PLabel.resume, PLabel.resume]
    (by decide)

/-- C2 counterexample: the claim is false on the code.  First trace (one
chunk; fetch completes, then `cancel()`, then `next()`): the resource still
in the ready-buffer is delivered by `next()` after cancellation instead of
being discarded — and that `next()` did not resolve to null.  Second trace
(consumer already waiting in `next()`, then `cancel()`, then the in-flight
fetch settles): the driver returns without resolving the waiter, so the
waiting consumer is never unblocked with null (`waiters` stays 1, nothing
was delivered). -/
theorem c2_counterexample :
    (run 1 (fun _ => true) [PLabel.resume, PLabel.cancel, PLabel.nextCall]).cancelled = true
    ∧ (run 1 (fun _ => true) [PLabel.resume, PLabel.cancel, PLabel.nextCall]).delivered
        = [some (Resource.audio 0)]
    ∧ (run 1 (fun _ => true) [PLabel.nextCall, PLabel.cancel, PLabel.resume]).waiters = 1
    ∧ (run 1 (fun _ => true) [PLabel.nextCall, PLabel.cancel, PLabel.resume]).delivered = []
    ∧ (run 1 (fun _ => true) [PLabel.nextCall, PLabel.cancel, PLabel.resume]).driverDone
        = true := by
  decide

/-- C2 (amended): `cancel()` is idempotent (on a cancelled queue it is the
identity), and after cancellation no new synthesis fetch is started (the
`started` list is frozen).  However, a consumer waiting in `next()` is never
unblocked by `cancel()` — no step of a cancelled queue ever resolves a
waiter (`waiters` never decreases) — and resources still in the ready-buffer
are delivered by subsequent `next()` calls rather than discarded. -/
theorem c2_cancel_semantics (n : Nat) (f : Nat → Bool) (s : PrefState) (l : PLabel)
    (h : s.cancelled = true) :
    step n f s PLabel.cancel = s
    ∧ (step n f s l).started = s.started
    ∧ s.waiters ≤ (step n f s l).waiters
    ∧ (∀ r rest, s.queue = r :: rest →
        (step n f s PLabel.nextCall).delivered = s.delivered ++ [some r]
        ∧ (step n f s PLabel.nextCall).queue = rest) := by
  obtain ⟨sc, sf, sd, si, sq, sw, sdel, sst, scomp⟩ := s
  simp only at h
  subst h
  refine ⟨rfl, ?_, ?_, ?_⟩
  · cases l with
    | cancel => rfl
    | nextCall =>
      cases sq with
      | nil => rfl
      | cons r rest => rfl
    | resume =>
      cases sf with
      | false => rfl
      | true => rfl
  · cases l with
    | cancel => exact Nat.le_refl _
    | nextCall =>
      cases sq with
      | nil => exact Nat.le_succ _
      | cons r rest => exact Nat.le_refl _
    | resume =>
      cases sf with
      | false => exact Nat.le_refl _
      | true => exact Nat.le_refl _
  · intro r rest hq
    cases sq with
    | nil => cases hq
    | cons r' rest' =>
      cases hq
      exact ⟨rfl, rfl⟩

theorem c2_cancel_semantics_witness :
    step 1 (fun _ => true)
        ⟨true, false, true, 1, [Resource.audio 0], 0, [], [0], 1⟩ PLabel.cancel
      = ⟨true, false, true, 1, [Resource.audio 0], 0, [], [0], 1⟩
    ∧ (step 1 (fun _ => true)
        ⟨true, false, true, 1, [Resource.audio 0], 0, [], [0], 1⟩ PLabel.nextCall).started
      = [0]
    ∧ (0 : Nat) ≤ (step 1 (fun _ => true)
        ⟨true, false, true, 1, [Resource.audio 0], 0, [], [0], 1⟩ PLabel.nextCall).waiters
    ∧ (step 1 (fun _ => true)
        ⟨true, false, true, 1, [Resource.audio 0], 0, [], [0], 1⟩ PLabel.nextCall).delivered
      = [some (Resource.audio 0)]
    ∧ (step 1 (fun _ => true)
        ⟨true, false, true, 1, [Resource.audio 0], 0, [], [0], 1⟩ PLabel.nextCall).queue
      = [] := by
  have h := c2_cancel_semantics 1 (fun _ => true)
    ⟨true, false, true, 1, [Resource.audio 0], 0, [], [0], 1⟩ PLabel.nextCall rfl
  obtain ⟨h1, h2, h3, h4⟩ := h
  obtain ⟨h5, h6⟩ := h4 (Resource.audio 0) [] rfl
  exact ⟨h1, h2, h3, by simpa using h5, h6⟩

/-- C3: a terminal synthesis failure of a unit never stops the pipeline.
Running the driver to completion (all `n` fetches settle, with failures
wherever the outcome oracle `f` says so), the driver finishes, produces
exactly one resource per unit, and the resource at position `i` is the
silence placeholder precisely when the fetch of unit `i` failed — otherwise
it is that unit's synthesized audio. -/
theorem c3_silence_substitution (n : Nat) (f : Nat → Bool) :
    (run n f (List.replicate n PLabel.resume)).driverDone = true
    ∧ (run n f (List.replicate n PLabel.resume)).queue.length = n
    ∧ ∀ i, i < n →
        (run n f (List.replicate n PLabel.resume)).queue[i]?
          = some (if f i = false then Resource.silence else Resource.audio i) := by
  have h := run_resumes n f n (Nat.le_refl n)
  rw [if_neg (by omega)] at h
  rw [h]
  refine ⟨rfl, by simp, ?_⟩
  intro i hi
  show ((List.range n).map (resourceOf f))[i]? = _
  rw [List.getElem?_map, List.getElem?_range hi]
  unfold resourceOf
  cases hfi : f i with
  | false => simp [hfi]
  | true => simp [hfi]

theorem c3_silence_substitution_witness :
    (run 2 (fun i => decide (i = 0)) (List.replicate 2 PLabel.resume)).driverDone = true
    ∧ (run 2 (fun i => decide (i = 0)) (List.replicate 2 PLabel.resume)).queue.length = 2
    ∧ (run 2 (fun i => decide (i = 0)) (List.replicate 2 PLabel.resume)).queue[1]?
        = some (if (fun i => decide (i = 0)) 1 = false then Resource.silence
                else Resource.audio 1) := by
  have h := c3_silence_substitution 2 (fun i => decide (i = 0))
  exact ⟨h.1, h.2.1, h.2.2 1 (by decide)⟩

/-! ## Lemmas: the synthesis client retry loop -/

theorem fetchLoop_ok_step (resp : Nat → TtsResponse) (jit : Nat → Nat)
    (rem attempt now cool : Nat) (log : List Nat)
    (audio : List Nat) (mime : List Char) (orig : Option (List Char))
    (h : resp (attempt + 1) = TtsResponse.ok audio mime orig) :
    fetchTtsBlobLoop resp jit (rem + 1) attempt now cool log
      = ⟨some (decodeBlob audio mime orig), max now cool, cool, log ++ [max now cool]⟩ := by
  simp only [fetchTtsBlobLoop, h]

theorem fetchLoop_rl_step (resp : Nat → TtsResponse) (jit : Nat → Nat)
    (rem attempt now cool w : Nat) (log : List Nat)
    (h : resp (attempt + 1) = TtsResponse.rateLimited (some w)) :
    fetchTtsBlobLoop resp jit (rem + 1) attempt now cool log
      = fetchTtsBlobLoop resp jit rem (attempt + 1)
          (max now cool + w) (max now cool + w) (log ++ [max now cool]) := by
  simp only [fetchTtsBlobLoop, h, Option.getD_some]

theorem fetchLoop_http_step (resp : Nat → TtsResponse) (jit : Nat → Nat)
    (rem attempt now cool : Nat) (log : List Nat)
    (h : resp (attempt + 1) = TtsResponse.httpError) :
    fetchTtsBlobLoop resp jit (rem + 1) attempt now cool log
      = fetchTtsBlobLoop resp jit rem (attempt + 1)
          (max now cool + jit (attempt + 1)) cool (log ++ [max now cool]) := by
  simp only [fetchTtsBlobLoop, h]

theorem fetchLoop_network_step (resp : Nat → TtsResponse) (jit : Nat → Nat)
    (rem attempt now cool : Nat) (log : List Nat)
    (h : resp (attempt + 1) = TtsResponse.networkFault) :
    fetchTtsBlobLoop resp jit (rem + 1) attempt now cool log
      = fetchTtsBlobLoop resp jit rem (attempt + 1)
          (max now cool + jit (attempt + 1)) cool (log ++ [max now cool]) := by
  simp only [fetchTtsBlobLoop, h]

/-- Every execution of the retry loop only appends to the request log, adds
at most one entry per remaining attempt, and every new request is issued no
earlier than `max now cool` — in particular not before the cooldown deadline
in force when the loop was entered. -/
theorem fetchLoop_log_extends (resp : Nat → TtsResponse) (jit : Nat → Nat) :
    ∀ rem attempt now cool log,
      ∃ ext, (fetchTtsBlobLoop resp jit rem attempt now cool log).log = log ++ ext
        ∧ ext.length ≤ rem
        ∧ ∀ e ∈ ext, max now cool ≤ e := by
  intro rem
  induction rem with
  | zero =>
    intro attempt now cool log
    refine ⟨[], ?_, by simp, by simp⟩
    show log = log ++ []
    simp
  | succ rem ih =>
    intro attempt now cool log
    cases hresp : resp (attempt + 1) with
    | ok audio mime orig =>
      rw [fetchLoop_ok_step resp jit rem attempt now cool log audio mime orig hresp]
      exact ⟨[max now cool], rfl, by simp, by simp⟩
    | rateLimited rms =>
      have hstep : fetchTtsBlobLoop resp jit (rem + 1) attempt now cool log
          = fetchTtsBlobLoop resp jit rem (attempt + 1)
              (max now cool + rms.getD (6000 * (attempt + 1)))
              (max now cool + rms.getD (6000 * (attempt + 1)))
              (log ++ [max now cool]) := by
        simp only [fetchTtsBlobLoop, hresp]
      rw [hstep]
      obtain ⟨ext, hlog, hlen, hge⟩ := ih (attempt + 1)
        (max now cool + rms.getD (6000 * (attempt + 1)))
        (max now cool + rms.getD (6000 * (attempt + 1)))
        (log ++ [max now cool])
      refine ⟨max now cool :: ext, by rw [hlog]; simp, by simpa using hlen, ?_⟩
      intro e he
      rcases List.mem_cons.mp he with rfl | he
      · exact Nat.le_refl _
      · have h1 := hge e he
        rw [Nat.max_self] at h1
        omega
    | httpError =>
      rw [fetchLoop_http_step resp jit rem attempt now cool log hresp]
      obtain ⟨ext, hlog, hlen, hge⟩ := ih (attempt + 1)
        (max now cool + jit (attempt + 1)) cool (log ++ [max now cool])
      refine ⟨max now cool :: ext, by rw [hlog]; simp, by simpa using hlen, ?_⟩
      intro e he
      rcases List.mem_cons.mp he with rfl | he
      · exact Nat.le_refl _
      · have h1 := hge e he
        have h2 : max now cool + jit (attempt + 1)
            ≤ max (max now cool + jit (attempt + 1)) cool := Nat.le_max_left _ _
        omega
    | networkFault =>
      rw [fetchLoop_network_step resp jit rem attempt now cool log hresp]
      obtain ⟨ext, hlog, hlen, hge⟩ := ih (attempt + 1)
        (max now cool + jit (attempt + 1)) cool (log ++ [max now cool])
      refine ⟨max now cool :: ext, by rw [hlog]; simp, by simpa using hlen, ?_⟩
      intro e he
      rcases List.mem_cons.mp he with rfl | he
      · exact Nat.le_refl _
      · have h1 := hge e he
        have h2 : max now cool + jit (attempt + 1)
            ≤ max (max now cool + jit (attempt + 1)) cool := Nat.le_max_left _ _
        omega

/-- When every response is a 429 without `retryAfterMs`, the loop consumes
all its attempts (each 429 counts against `maxAttempts`) and ends in the
terminal `throw lastErr`. -/
theorem fetchLoop_all429 (resp : Nat → TtsResponse) (jit : Nat → Nat)
    (hresp : ∀ a, resp a = TtsResponse.rateLimited none) :
    ∀ rem attempt now cool log,
      (fetchTtsBlobLoop resp jit rem attempt now cool log).outcome = none
      ∧ (fetchTtsBlobLoop resp jit rem attempt now cool log).log.length
          = log.length + rem := by
  intro rem
  induction rem with
  | zero =>
    intro attempt now cool log
    refine ⟨rfl, ?_⟩
    show log.length = log.length + 0
    simp
  | succ rem ih =>
    intro attempt now cool log
    have hstep : fetchTtsBlobLoop resp jit (rem + 1) attempt now cool log
        = fetchTtsBlobLoop resp jit rem (attempt + 1)
            (max now cool + 6000 * (attempt + 1))
            (max now cool + 6000 * (attempt + 1))
            (log ++ [max now cool]) := by
      simp only [fetchTtsBlobLoop, hresp (attempt + 1), Option.getD_none]
    rw [hstep]
    obtain ⟨h1, h2⟩ := ih (attempt + 1) (max now cool + 6000 * (attempt + 1))
      (max now cool + 6000 * (attempt + 1)) (log ++ [max now cool])
    refine ⟨h1, ?_⟩
    rw [h2]
    simp
    omega

theorem fetchLoop_rl_step_getD (resp : Nat → TtsResponse) (jit : Nat → Nat)
    (rem attempt now cool : Nat) (rms : Option Nat) (log : List Nat)
    (h : resp (attempt + 1) = TtsResponse.rateLimited rms) :
    fetchTtsBlobLoop resp jit (rem + 1) attempt now cool log
      = fetchTtsBlobLoop resp jit rem (attempt + 1)
          (max now cool + rms.getD (6000 * (attempt + 1)))
          (max now cool + rms.getD (6000 * (attempt + 1)))
          (log ++ [max now cool]) := by
  simp only [fetchTtsBlobLoop, h]

/-- C4 counterexample: the claim is false on the code.  The server answers
the first attempt with a non-rate-limit non-success response (the
`SynthesisFailed` case: the client throws for it) and the second attempt with
success.  `fetchTtsBlob` retries after the jittered delay and succeeds — two
requests were issued (at times 0 and 700) and the error was not surfaced —
whereas the claim says such a response is never retried and is surfaced to
the caller. -/
theorem c4_counterexample :
    (fetchTtsBlob
        (fun a => if a = 1 then TtsResponse.httpError
                  else TtsResponse.ok [] ('a' :: 'u' :: 'd' :: 'i' :: 'o' :: '/' :: 'w' :: 'a' :: 'v' :: []) none)
        (fun _ => 700) 0 0).log = [0, 700]
    ∧ (fetchTtsBlob
        (fun a => if a = 1 then TtsResponse.httpError
                  else TtsResponse.ok [] ('a' :: 'u' :: 'd' :: 'i' :: 'o' :: '/' :: 'w' :: 'a' :: 'v' :: []) none)
        (fun _ => 700) 0 0).outcome.isSome = true := by
  decide

/-- C4 (amended): `fetchTtsBlob` makes at most 4 attempts per unit.  A
rate-limit response installs the shared cooldown and is retried once the
cooldown elapses, but it does count toward the 4-attempt limit: four
consecutive 429s exhaust the loop and surface the terminal failure.  A
non-rate-limit non-success response is retried exactly like a network-level
fault, after the jittered delay `jit 1 ∈ [500, 1000]` ms (the model of
`500 + Math.random() * 500`). -/
theorem c4_retry_policy (resp : Nat → TtsResponse) (jit : Nat → Nat) (now cool : Nat)
    (hjit : ∀ a, 500 ≤ jit a ∧ jit a ≤ 1000) :
    (fetchTtsBlob resp jit now cool).log.length ≤ 4
    ∧ ((∀ a, resp a = TtsResponse.rateLimited none) →
        (fetchTtsBlob resp jit now cool).outcome = none
        ∧ (fetchTtsBlob resp jit now cool).log.length = 4)
    ∧ ((resp 1 = TtsResponse.httpError ∨ resp 1 = TtsResponse.networkFault) →
        (fetchTtsBlob resp jit now cool).log.take 2
          = [max now cool, max now cool + jit 1]
        ∧ 500 ≤ jit 1 ∧ jit 1 ≤ 1000) := by
  refine ⟨?_, ?_, ?_⟩
  · obtain ⟨ext, hlog, hlen, _⟩ := fetchLoop_log_extends resp jit 4 0 now cool []
    have hlog' : (fetchTtsBlob resp jit now cool).log = [] ++ ext := hlog
    rw [hlog']
    simpa using hlen
  · intro hall
    obtain ⟨h1, h2⟩ := fetchLoop_all429 resp jit hall 4 0 now cool []
    exact ⟨h1, by simpa using h2⟩
  · intro hr1
    have e1 : fetchTtsBlob resp jit now cool
        = fetchTtsBlobLoop resp jit 3 1 (max now cool + jit 1) cool [max now cool] := by
      show fetchTtsBlobLoop resp jit (3 + 1) 0 now cool [] = _
      rcases hr1 with h | h
      · exact fetchLoop_http_step resp jit 3 0 now cool [] h
      · exact fetchLoop_network_step resp jit 3 0 now cool [] h
    rw [e1]
    have hc : cool ≤ max now cool + jit 1 :=
      le_trans (Nat.le_max_right now cool) (Nat.le_add_right _ _)
    have hmax : max (max now cool + jit 1) cool = max now cool + jit 1 := max_eq_left hc
    refine ⟨?_, (hjit 1).1, (hjit 1).2⟩
    cases hr2 : resp 2 with
    | ok audio mime orig =>
      have e2 : fetchTtsBlobLoop resp jit 3 1 (max now cool + jit 1) cool [max now cool]
          = ⟨some (decodeBlob audio mime orig), max (max now cool + jit 1) cool, cool,
             [max now cool] ++ [max (max now cool + jit 1) cool]⟩ :=
        fetchLoop_ok_step resp jit 2 1 _ cool [max now cool] audio mime orig hr2
      rw [e2]
      show ([max now cool] ++ [max (max now cool + jit 1) cool]).take 2 = _
      rw [hmax]
      rfl
    | rateLimited rms =>
      have e2 : fetchTtsBlobLoop resp jit 3 1 (max now cool + jit 1) cool [max now cool]
          = fetchTtsBlobLoop resp jit 2 2
              (max (max now cool + jit 1) cool + rms.getD (6000 * 2))
              (max (max now cool + jit 1) cool + rms.getD (6000 * 2))
              ([max now cool] ++ [max (max now cool + jit 1) cool]) :=
        fetchLoop_rl_step_getD resp jit 2 1 _ cool rms [max now cool] hr2
      rw [e2]
      obtain ⟨ext, hlog, _, _⟩ := fetchLoop_log_extends resp jit 2 2 _ _
        ([max now cool] ++ [max (max now cool + jit 1) cool])
      rw [hlog, hmax]
      rfl
    | httpError =>
      have e2 : fetchTtsBlobLoop resp jit 3 1 (max now cool + jit 1) cool [max now cool]
          = fetchTtsBlobLoop resp jit 2 2
              (max (max now cool + jit 1) cool + jit 2) cool
              ([max now cool] ++ [max (max now cool + jit 1) cool]) :=
        fetchLoop_http_step resp jit 2 1 _ cool [max now cool] hr2
      rw [e2]
      obtain ⟨ext, hlog, _, _⟩ := fetchLoop_log_extends resp jit 2 2 _ _
        ([max now cool] ++ [max (max now cool + jit 1) cool])
      rw [hlog, hmax]
      rfl
    | networkFault =>
      have e2 : fetchTtsBlobLoop resp jit 3 1 (max now cool + jit 1) cool [max now cool]
          = fetchTtsBlobLoop resp jit 2 2
              (max (max now cool + jit 1) cool + jit 2) cool
              ([max now cool] ++ [max (max now cool + jit 1) cool]) :=
        fetchLoop_network_step resp jit 2 1 _ cool [max now cool] hr2
      rw [e2]
      obtain ⟨ext, hlog, _, _⟩ := fetchLoop_log_extends resp jit 2 2 _ _
        ([max now cool] ++ [max (max now cool + jit 1) cool])
      rw [hlog, hmax]
      rfl

theorem c4_retry_policy_witness :
    (fetchTtsBlob (fun _ => TtsResponse.rateLimited none) (fun _ => 700) 0 0).log.length ≤ 4
    ∧ (fetchTtsBlob (fun _ => TtsResponse.rateLimited none) (fun _ => 700) 0 0).outcome = none
    ∧ (fetchTtsBlob (fun _ => TtsResponse.rateLimited none) (fun _ => 700) 0 0).log.length
        = 4 := by
  have h := c4_retry_policy (fun _ => TtsResponse.rateLimited none) (fun _ => 700) 0 0
    (fun _ => by constructor <;> norm_num)
  obtain ⟨h1, h2, _⟩ := h
  obtain ⟨h3, h4⟩ := h2 (fun _ => rfl)
  exact ⟨h1, h3, h4⟩

/-- C5 counterexample: the claim is false on the code.  `fetchTtsForCaching`
— the synthesis call used by the prefetch queue — issues its network request
immediately (here at time 0) even though the shared cooldown deadline (1000)
has not passed: it never consults the cooldown state. -/
theorem c5_counterexample :
    (fetchTtsForCaching
        (TtsResponse.ok [] ('a' :: 'u' :: 'd' :: 'i' :: 'o' :: '/' :: 'w' :: 'a' :: 'v' :: []) none)
        0 1000).requestTime = 0
    ∧ (0 : Nat) < 1000 := by
  decide

/-- C5 (amended): in `fetchTtsBlob`, every network request is issued no
earlier than the cooldown deadline in force when the call started, and a
rate-limit response carrying `retryAfterMs = w` on the first attempt sets the
shared cooldown to (request time + w), so every subsequent request of that
call is delayed by at least `w` milliseconds.  `fetchTtsForCaching`, however,
issues its single request immediately, regardless of the cooldown. -/
theorem c5_cooldown (resp : Nat → TtsResponse) (jit : Nat → Nat) (now cool w : Nat)
    (hrl : resp 1 = TtsResponse.rateLimited (some w)) :
    (∀ e ∈ (fetchTtsBlob resp jit now cool).log, max now cool ≤ e)
    ∧ (∀ e ∈ (fetchTtsBlob resp jit now cool).log.tail, max now cool + w ≤ e)
    ∧ (∀ r n0 c0, (fetchTtsForCaching r n0 c0).requestTime = n0) := by
  refine ⟨?_, ?_, ?_⟩
  · obtain ⟨ext, hlog, _, hge⟩ := fetchLoop_log_extends resp jit 4 0 now cool []
    have hlog' : (fetchTtsBlob resp jit now cool).log = [] ++ ext := hlog
    rw [hlog']
    intro e he
    exact hge e (by simpa using he)
  · have e1 : fetchTtsBlob resp jit now cool
        = fetchTtsBlobLoop resp jit 3 1 (max now cool + w) (max now cool + w)
            [max now cool] := by
      show fetchTtsBlobLoop resp jit (3 + 1) 0 now cool [] = _
      exact fetchLoop_rl_step resp jit 3 0 now cool w [] hrl
    rw [e1]
    obtain ⟨ext, hlog, _, hge⟩ := fetchLoop_log_extends resp jit 3 1
      (max now cool + w) (max now cool + w) [max now cool]
    rw [hlog]
    intro e he
    have h1 := hge e (by simpa using he)
    rw [Nat.max_self] at h1
    exact h1
  · intro r n0 c0
    cases r <;> rfl

theorem c5_cooldown_witness :
    (∀ e ∈ (fetchTtsBlob (fun _ => TtsResponse.rateLimited (some 2000)) (fun _ => 700)
        5 10).log, max 5 10 ≤ e)
    ∧ (∀ e ∈ (fetchTtsBlob (fun _ => TtsResponse.rateLimited (some 2000)) (fun _ => 700)
        5 10).log.tail, max 5 10 + 2000 ≤ e)
    ∧ (fetchTtsForCaching (TtsResponse.ok [] [] none) 7 9999).requestTime = 7 := by
  have h := c5_cooldown (fun _ => TtsResponse.rateLimited (some 2000)) (fun _ => 700)
    5 10 2000 rfl
  exact ⟨h.1, h.2.1, h.2.2 (TtsResponse.ok [] [] none) 7 9999⟩

/-! ## C9, C10: WAV conversion and cache lookup -/

/-- C9 counterexample: the claim is false on the code.  The header written by
`pcmToWav` is exactly 44 bytes (the output for empty PCM input has length
44), not "45 or more" as the claim states. -/
theorem c9_counterexample :
    (pcmToWav [] 24000 1 16).length = 44 ∧ 44 < 45 := by
  decide

/-- C9 (amended): `pcmToWav` is a pure function returning the input bytes
prefixed by the standard 44-byte RIFF/WAVE header, which encodes the channel
count (offset 22), the sample rate (offset 24), the byte rate
`sampleRate * numChannels * bitsPerSample / 8` (offset 28) and the bit depth
(offset 34), each in little-endian byte order. -/
theorem c9_wav_header (pcmData : List Nat) (sampleRate numChannels bitsPerSample : Nat) :
    (pcmToWav pcmData sampleRate numChannels bitsPerSample).length = pcmData.length + 44
    ∧ (pcmToWav pcmData sampleRate numChannels bitsPerSample).drop 44 = pcmData
    ∧ (pcmToWav pcmData sampleRate numChannels bitsPerSample).take 4 = u32be 0x52494646
    ∧ ((pcmToWav pcmData sampleRate numChannels bitsPerSample).drop 22).take 2
        = u16le numChannels
    ∧ ((pcmToWav pcmData sampleRate numChannels bitsPerSample).drop 24).take 4
        = u32le sampleRate
    ∧ ((pcmToWav pcmData sampleRate numChannels bitsPerSample).drop 28).take 4
        = u32le (sampleRate * numChannels * bitsPerSample / 8)
    ∧ ((pcmToWav pcmData sampleRate numChannels bitsPerSample).drop 34).take 2
        = u16le bitsPerSample := by
  refine ⟨?_, ?_, ?_, ?_, ?_, ?_, ?_⟩ <;>
    simp only [pcmToWav, wavHeader, u16le, u32le, u32be, List.cons_append,
      List.nil_append, List.length_cons, List.drop_succ_cons, List.drop_zero,
      List.take_succ_cons, List.take_zero, List.length_append]

/-- C10: cache lookup is read-only.  For every question and storage state,
`getFromQaCache` returns the storage unchanged — in particular a hit does not
move the found entry to the most-recent position, so recency is affected only
by `trySaveToQaCache` — and both a missing key and an unparsable stored value
yield `null` (the parse failure is caught) rather than an exception. -/
theorem c10_lookup_pure (q : List Char) (store : Stored) :
    (getFromQaCache q store).2 = store
    ∧ (getFromQaCache q Stored.missing).1 = none
    ∧ (getFromQaCache q Stored.corrupt).1 = none
    ∧ ∀ arr, (getFromQaCache q (Stored.vals arr)).2 = Stored.vals arr := by
  refine ⟨?_, rfl, rfl, fun arr => rfl⟩
  cases store <;> rfl

/-! ## Lemmas: the cache (`trySaveToQaCache`) -/

/-- Decomposition of a successful `findIdx?` search: the list splits as
`pre ++ x :: post` with `x` the first match, and `eraseIdx`/indexing are
determined accordingly. -/
theorem findIdx_decomp {α : Type} (p : α → Bool) :
    ∀ (arr : List α) (idx : Nat), arr.findIdx? p = some idx →
      ∃ pre x post, arr = pre ++ x :: post ∧ pre.length = idx
        ∧ (∀ y ∈ pre, p y = false) ∧ p x = true
        ∧ arr.eraseIdx idx = pre ++ post ∧ arr[idx]? = some x := by
  intro arr
  induction arr with
  | nil =>
    intro idx h
    simp at h
  | cons hd l ih =>
    intro idx h
    rw [List.findIdx?_cons] at h
    by_cases hp : p hd
    · rw [if_pos hp] at h
      obtain rfl : (0 : Nat) = idx := by simpa using h
      exact ⟨[], hd, l, rfl, rfl, by simp, hp, rfl, by simp⟩
    · rw [if_neg hp, List.findIdx?_succ] at h
      obtain ⟨j, hj, rfl⟩ := Option.map_eq_some'.mp h
      obtain ⟨pre, x, post, h1, h2, h3, h4, h5, h6⟩ := ih j hj
      refine ⟨hd :: pre, x, post, by rw [h1]; rfl, by simp [h2], ?_, h4, ?_, ?_⟩
      · intro y hy
        rcases List.mem_cons.mp hy with rfl | hy
        · simpa using hp
        · exact h3 y hy
      · show hd :: l.eraseIdx j = (hd :: pre) ++ post
        rw [h5]
        rfl
      · rw [List.getElem?_cons_succ]
        exact h6

/-- C7: the cache invariant and the eviction behaviour.  Saving into a
well-formed stored list preserves well-formedness (at most 20 entries, at
most one entry per normalized question), and saving a question whose
normalized form is distinct from all 20 stored ones inserts it in front and
removes exactly the least-recently-saved (last) entry, leaving the other
entries unchanged and in order. -/
theorem c7_cache_lru (arr : List QaCacheEntry) (q a : List Char)
    (parts : List CachedTtsPart) (append : Bool) (hwf : wfCache arr) :
    wfCache (storedEntries (trySaveToQaCache q a parts append (Stored.vals arr)))
    ∧ (arr.length = QA_CACHE_LIMIT →
       (∀ e ∈ arr, normalizeQuestion e.question ≠ normalizeQuestion q) →
       trySaveToQaCache q a parts append (Stored.vals arr)
         = Stored.vals (⟨q, a, parts⟩ :: arr.dropLast)) := by
  obtain ⟨hlen, hpw⟩ := hwf
  cases hidx : arr.findIdx? (fun e => normalizeQuestion e.question == normalizeQuestion q) with
  | none =>
    have hfresh' : ∀ e ∈ arr, normalizeQuestion e.question ≠ normalizeQuestion q := by
      intro e he
      have := List.findIdx?_eq_none_iff.mp hidx e he
      simpa using this
    have hstep : trySaveToQaCache q a parts append (Stored.vals arr)
        = Stored.vals
            (if QA_CACHE_LIMIT < ((⟨q, a, parts⟩ : QaCacheEntry) :: arr).length
             then ((⟨q, a, parts⟩ : QaCacheEntry) :: arr).take QA_CACHE_LIMIT
             else (⟨q, a, parts⟩ : QaCacheEntry) :: arr) := by
      simp only [trySaveToQaCache, hidx]
    have hpw2 : ((⟨q, a, parts⟩ : QaCacheEntry) :: arr).Pairwise
        (fun x y => normalizeQuestion x.question ≠ normalizeQuestion y.question) := by
      rw [List.pairwise_cons]
      exact ⟨fun e he hEq => hfresh' e he hEq.symm, hpw⟩
    refine ⟨?_, ?_⟩
    · rw [hstep]
      simp only [storedEntries]
      by_cases h20 : QA_CACHE_LIMIT < ((⟨q, a, parts⟩ : QaCacheEntry) :: arr).length
      · rw [if_pos h20]
        refine ⟨?_, List.Pairwise.sublist (List.take_sublist _ _) hpw2⟩
        rw [List.length_take]
        exact min_le_left _ _
      · rw [if_neg h20]
        refine ⟨?_, hpw2⟩
        simp only [List.length_cons] at h20 ⊢
        omega
    · intro hlen20 _
      rw [hstep, if_pos (by simp [hlen20])]
      congr 1
      rw [show QA_CACHE_LIMIT = 19 + 1 from rfl, List.take_succ_cons,
          List.dropLast_eq_take, hlen20]
      norm_num [QA_CACHE_LIMIT]
  | some idx =>
    obtain ⟨pre, x, post, harr, hpre, hfalse, htrue, herase, hget⟩ :=
      findIdx_decomp _ arr idx hidx
    have hxq : normalizeQuestion x.question = normalizeQuestion q := by simpa using htrue
    have hxmem : x ∈ arr := by rw [harr]; simp
    have hpw' := hpw
    rw [harr] at hpw'
    have hpost : ∀ y ∈ post,
        normalizeQuestion x.question ≠ normalizeQuestion y.question := by
      have h1 := (List.pairwise_append.mp hpw').2.1
      exact (List.pairwise_cons.mp h1).1
    have hpre' : ∀ y ∈ pre,
        normalizeQuestion y.question ≠ normalizeQuestion x.question := by
      intro y hy
      have h1 := hfalse y hy
      rw [hxq]
      simpa using h1
    have herasewf : (pre ++ post).Pairwise
        (fun x y => normalizeQuestion x.question ≠ normalizeQuestion y.question) :=
      List.Pairwise.sublist (List.Sublist.append_left (List.sublist_cons_self x post) pre)
        hpw'
    have hidxlt : idx < arr.length := by
      rw [harr, ← hpre]
      simp
    have hlenerase : (arr.eraseIdx idx).length = arr.length - 1 := by
      rw [List.length_eraseIdx, if_pos hidxlt]
    by_cases hap : (append && !parts.isEmpty) = true
    · have hstep : trySaveToQaCache q a parts append (Stored.vals arr)
          = Stored.vals
              (((⟨x.question, if a.isEmpty then x.answer else a,
                  x.ttsParts ++ parts⟩ : QaCacheEntry)
                 :: arr.eraseIdx idx).take QA_CACHE_LIMIT) := by
        simp only [trySaveToQaCache, hidx, hap, hget]
        rfl
      refine ⟨?_, fun _ hfresh => absurd hxq (hfresh x hxmem)⟩
      rw [hstep]
      simp only [storedEntries]
      refine ⟨?_, ?_⟩
      · rw [List.length_take]
        exact min_le_left _ _
      · refine List.Pairwise.sublist (List.take_sublist _ _) ?_
        rw [herase, List.pairwise_cons]
        refine ⟨?_, herasewf⟩
        intro y hy
        show normalizeQuestion x.question ≠ normalizeQuestion y.question
        rcases List.mem_append.mp hy with hy | hy
        · exact (hpre' y hy).symm
        · exact hpost y hy
    · have hstep : trySaveToQaCache q a parts append (Stored.vals arr)
          = Stored.vals
              (if QA_CACHE_LIMIT < ((⟨q, a, parts⟩ : QaCacheEntry) :: arr.eraseIdx idx).length
               then ((⟨q, a, parts⟩ : QaCacheEntry) :: arr.eraseIdx idx).take QA_CACHE_LIMIT
               else (⟨q, a, parts⟩ : QaCacheEntry) :: arr.eraseIdx idx) := by
        simp only [trySaveToQaCache, hidx]
        rw [if_neg hap]
      refine ⟨?_, fun _ hfresh => absurd hxq (hfresh x hxmem)⟩
      rw [hstep]
      simp only [storedEntries]
      have hnot : ¬ QA_CACHE_LIMIT
          < ((⟨q, a, parts⟩ : QaCacheEntry) :: arr.eraseIdx idx).length := by
        simp only [List.length_cons, hlenerase]
        omega
      rw [if_neg hnot]
      refine ⟨?_, ?_⟩
      · simp only [List.length_cons, hlenerase]
        omega
      · rw [herase, List.pairwise_cons]
        refine ⟨?_, herasewf⟩
        intro y hy
        show normalizeQuestion q ≠ normalizeQuestion y.question
        rw [← hxq]
        rcases List.mem_append.mp hy with hy | hy
        · exact (hpre' y hy).symm
        · exact hpost y hy

theorem c7_cache_lru_witness :
    wfCache (storedEntries (trySaveToQaCache ['u'] [] [] true (Stored.vals demoArr)))
    ∧ trySaveToQaCache ['u'] [] [] true (Stored.vals demoArr)
        = Stored.vals (⟨['u'], [], []⟩ :: demoArr.dropLast) := by
  have h := c7_cache_lru demoArr ['u'] [] [] true (by decide)
  exact ⟨h.1, h.2 (by decide) (by decide)⟩

/-- C8 counterexample: the claim is false on the code.  The stored entry for
question `"q"` holds one audio part; saving with `append = true` but an empty
new-audio list destructively replaces the entry (the stored part is lost),
although the claim says an existing entry is destructively replaced only when
`append` is false. -/
theorem c8_counterexample :
    trySaveToQaCache ['q'] ['b'] [] true
        (Stored.vals [⟨['q'], ['a'], [⟨['x'], ['m'], none⟩]⟩])
      = Stored.vals [⟨['q'], ['b'], []⟩] := by
  decide

/-- C8 (amended): for an existing entry, saving with `append = true` AND a
non-empty new-audio list extends the entry's audio list in order (the
previously stored parts remain as a prefix) and moves the entry to the
most-recent (front) position; when `append` is false — or when the new-audio
list is empty, even with `append = true` — the entry is destructively
replaced by the new record. -/
theorem c8_append_semantics (arr : List QaCacheEntry) (q a : List Char)
    (parts : List CachedTtsPart) (idx : Nat) (existing : QaCacheEntry)
    (hlen : arr.length ≤ QA_CACHE_LIMIT)
    (hfind : arr.findIdx? (fun e => normalizeQuestion e.question == normalizeQuestion q)
        = some idx)
    (hget : arr[idx]? = some existing) :
    (parts ≠ [] →
      trySaveToQaCache q a parts true (Stored.vals arr)
        = Stored.vals (⟨existing.question, if a.isEmpty then existing.answer else a,
                         existing.ttsParts ++ parts⟩ :: arr.eraseIdx idx))
    ∧ trySaveToQaCache q a parts false (Stored.vals arr)
        = Stored.vals (⟨q, a, parts⟩ :: arr.eraseIdx idx)
    ∧ (parts = [] →
      trySaveToQaCache q a parts true (Stored.vals arr)
        = Stored.vals (⟨q, a, parts⟩ :: arr.eraseIdx idx)) := by
  obtain ⟨pre, x, post, harr, hpre, hfalse, htrue, herase, hget'⟩ :=
    findIdx_decomp _ arr idx hfind
  have hx : x = existing := by
    rw [hget'] at hget
    exact Option.some.inj hget
  subst hx
  have hidxlt : idx < arr.length := by
    rw [harr, ← hpre]
    simp
  have hlenerase : (arr.eraseIdx idx).length = arr.length - 1 := by
    rw [List.length_eraseIdx, if_pos hidxlt]
  have hnot : ∀ e : QaCacheEntry,
      ¬ QA_CACHE_LIMIT < (e :: arr.eraseIdx idx).length := by
    intro e
    simp only [List.length_cons, hlenerase]
    omega
  refine ⟨?_, ?_, ?_⟩
  · intro hp
    have hap : (true && !parts.isEmpty) = true := by
      cases parts with
      | nil => exact absurd rfl hp
      | cons p ps => rfl
    have hstep : trySaveToQaCache q a parts true (Stored.vals arr)
        = Stored.vals
            (((⟨x.question, if a.isEmpty then x.answer else a,
                x.ttsParts ++ parts⟩ : QaCacheEntry)
               :: arr.eraseIdx idx).take QA_CACHE_LIMIT) := by
      simp only [trySaveToQaCache, hfind, hap, hget']
      rfl
    rw [hstep]
    congr 1
    apply List.take_of_length_le
    simp only [List.length_cons, hlenerase]
    omega
  · have hap : (false && !parts.isEmpty) = false := rfl
    have hstep : trySaveToQaCache q a parts false (Stored.vals arr)
        = Stored.vals
            (if QA_CACHE_LIMIT < ((⟨q, a, parts⟩ : QaCacheEntry) :: arr.eraseIdx idx).length
             then ((⟨q, a, parts⟩ : QaCacheEntry) :: arr.eraseIdx idx).take QA_CACHE_LIMIT
             else (⟨q, a, parts⟩ : QaCacheEntry) :: arr.eraseIdx idx) := by
      simp only [trySaveToQaCache, hfind]
      rw [if_neg (by simp [hap])]
    rw [hstep, if_neg (hnot _)]
  · intro hp
    subst hp
    have hstep : trySaveToQaCache q a [] true (Stored.vals arr)
        = Stored.vals
            (if QA_CACHE_LIMIT < ((⟨q, a, []⟩ : QaCacheEntry) :: arr.eraseIdx idx).length
             then ((⟨q, a, []⟩ : QaCacheEntry) :: arr.eraseIdx idx).take QA_CACHE_LIMIT
             else (⟨q, a, []⟩ : QaCacheEntry) :: arr.eraseIdx idx) := by
      simp only [trySaveToQaCache, hfind]
      rw [if_neg (by simp)]
    rw [hstep, if_neg (hnot _)]

theorem c8_append_semantics_witness :
    trySaveToQaCache ['q'] ['z'] [⟨['e'], ['m'], none⟩] true (Stored.vals demoArr8)
      = Stored.vals (⟨['q'],
          if (['z'] : List Char).isEmpty then ['y'] else ['z'],
          [⟨['d'], ['m'], none⟩] ++ [⟨['e'], ['m'], none⟩]⟩ :: demoArr8.eraseIdx 1)
    ∧ trySaveToQaCache ['q'] ['z'] [⟨['e'], ['m'], none⟩] false (Stored.vals demoArr8)
      = Stored.vals (⟨['q'], ['z'], [⟨['e'], ['m'], none⟩]⟩ :: demoArr8.eraseIdx 1) := by
  have h := c8_append_semantics demoArr8 ['q'] ['z'] [⟨['e'], ['m'], none⟩] 1
    ⟨['q'], ['y'], [⟨['d'], ['m'], none⟩]⟩ (by decide) (by decide) (by decide)
  exact ⟨h.1 (by decide), h.2.1⟩

/-! ## Lemmas: whitespace handling and the partitioners (C6) -/

theorem length_dropWhile_le {α : Type} (p : α → Bool) (l : List α) :
    (l.dropWhile p).length ≤ l.length :=
  List.Sublist.length_le (List.dropWhile_sublist p)

theorem splitWs_ws_cons {c : Char} (cs : List Char) (h : isWs c = true) :
    splitWs (c :: cs) = splitWs cs := by
  simp [splitWs, splitWsAux, h]

theorem splitWsAux_acc (s : List Char) :
    ∀ acc, acc ≠ [] →
      splitWsAux s acc
        = (acc.reverse ++ s.takeWhile (fun d => !isWs d))
            :: splitWs (s.dropWhile (fun d => !isWs d)) := by
  induction s with
  | nil =>
    intro acc hacc
    simp [splitWsAux, hacc, splitWs]
  | cons c cs ih =>
    intro acc hacc
    by_cases hc : isWs c = true
    · have h1 : splitWsAux (c :: cs) acc = acc.reverse :: splitWsAux cs [] := by
        simp [splitWsAux, hc, hacc]
      rw [h1]
      rw [List.takeWhile_cons_of_neg (by simp [hc]), List.dropWhile_cons_of_neg (by simp [hc])]
      rw [splitWs_ws_cons cs hc]
      simp [splitWs]
    · have hc' : isWs c = false := by
        cases hcc : isWs c
        · rfl
        · exact absurd hcc hc
      have h1 : splitWsAux (c :: cs) acc = splitWsAux cs (c :: acc) := by
        simp [splitWsAux, hc']
      rw [h1, ih (c :: acc) (by simp)]
      rw [List.takeWhile_cons_of_pos (by simp [hc']), List.dropWhile_cons_of_pos (by simp [hc'])]
      simp

theorem splitWs_word_cons {c : Char} (cs : List Char) (h : isWs c = false) :
    splitWs (c :: cs)
      = (c :: cs.takeWhile (fun d => !isWs d))
          :: splitWs (cs.dropWhile (fun d => !isWs d)) := by
  have h1 : splitWs (c :: cs) = splitWsAux cs [c] := by
    simp [splitWs, splitWsAux, h]
  rw [h1, splitWsAux_acc cs [c] (by simp)]
  simp

theorem splitWs_dropWhile_ws (s : List Char) :
    splitWs (s.dropWhile isWs) = splitWs s := by
  induction s with
  | nil => rfl
  | cons c cs ih =>
    by_cases hc : isWs c = true
    · rw [List.dropWhile_cons_of_pos hc, ih, splitWs_ws_cons cs hc]
    · rw [List.dropWhile_cons_of_neg hc]

theorem collapseRuns_nonws_cons {c : Char} (cs : List Char) (h : isWs c = false) :
    collapseRuns (c :: cs) = c :: collapseRuns cs := by
  cases cs with
  | nil => simp [collapseRuns, h]
  | cons d ds => simp [collapseRuns, h]

theorem collapseRuns_ws_run :
    ∀ (cs : List Char) (c : Char), isWs c = true →
      collapseRuns (c :: cs) = ' ' :: collapseRuns (cs.dropWhile isWs) := by
  intro cs
  induction cs with
  | nil =>
    intro c hc
    simp [collapseRuns, hc]
  | cons d ds ih =>
    intro c hc
    by_cases hd : isWs d = true
    · rw [show collapseRuns (c :: d :: ds) = collapseRuns (d :: ds) by
          simp [collapseRuns, hc, hd]]
      rw [ih d hd, List.dropWhile_cons_of_pos hd]
    · rw [show collapseRuns (c :: d :: ds) = ' ' :: collapseRuns (d :: ds) by
          simp [collapseRuns, hc, hd]]
      rw [List.dropWhile_cons_of_neg hd]

theorem collapseRuns_nonws_append :
    ∀ (w r : List Char), (∀ x ∈ w, isWs x = false) →
      collapseRuns (w ++ r) = w ++ collapseRuns r := by
  intro w
  induction w with
  | nil => intro r _; rfl
  | cons c cs ih =>
    intro r hw
    rw [List.cons_append, collapseRuns_nonws_cons _ (hw c (by simp))]
    rw [ih r (fun x hx => hw x (by simp [hx]))]
    rfl

theorem dropWhile_head_not {α : Type} (p : α → Bool) :
    ∀ (l : List α) (a : α) (t : List α), l.dropWhile p = a :: t → p a = false := by
  intro l
  induction l with
  | nil => intro a t h; cases h
  | cons c cs ih =>
    intro a t h
    by_cases hc : p c = true
    · rw [List.dropWhile_cons_of_pos hc] at h
      exact ih a t h
    · rw [List.dropWhile_cons_of_neg hc] at h
      injection h with h1 h2
      subst h1
      cases hcc : p c
      · rfl
      · exact absurd hcc hc

theorem dropWhile_of_neg {α : Type} (p : α → Bool) (l : List α)
    (h : ∀ x ∈ l, p x = false) : l.dropWhile p = l := by
  cases l with
  | nil => rfl
  | cons c cs => exact List.dropWhile_cons_of_neg (by simp [h c (by simp)])

theorem jsTrim_nonws (w : List Char) (h : ∀ x ∈ w, isWs x = false) :
    jsTrim w = w := by
  unfold jsTrim
  rw [dropWhile_of_neg isWs w h,
      dropWhile_of_neg isWs w.reverse (fun x hx => h x (List.mem_reverse.mp hx)),
      List.reverse_reverse]

theorem trimEnd_append (a X : List Char) (hX : ∃ x ∈ X, isWs x = false) :
    ((a ++ X).reverse.dropWhile isWs).reverse
      = a ++ (X.reverse.dropWhile isWs).reverse := by
  rw [List.reverse_append, List.dropWhile_append]
  rw [if_neg ?hne]
  case hne =>
    obtain ⟨x, hx, hxw⟩ := hX
    simp only [List.isEmpty_eq_true, List.dropWhile_eq_nil_iff]
    intro hall
    have := hall x (List.mem_reverse.mpr hx)
    rw [hxw] at this
    cases this
  rw [List.reverse_append, List.reverse_reverse]

theorem jsTrim_nonws_space (w : List Char) (hw : ∀ x ∈ w, isWs x = false)
    (hne : w ≠ []) : jsTrim (w ++ [' ']) = w := by
  unfold jsTrim
  have h1 : (w ++ [' ']).dropWhile isWs = w ++ [' '] := by
    cases w with
    | nil => exact absurd rfl hne
    | cons c tW =>
      rw [List.cons_append]
      exact List.dropWhile_cons_of_neg (by simp [hw c (by simp)])
  rw [h1, List.reverse_append]
  rw [show ([' '] : List Char).reverse = [' '] from rfl]
  rw [show (([' '] : List Char) ++ w.reverse) = ' ' :: w.reverse from rfl]
  rw [List.dropWhile_cons_of_pos (show isWs ' ' = true by decide)]
  rw [dropWhile_of_neg isWs w.reverse (fun x hx => hw x (List.mem_reverse.mp hx))]
  exact List.reverse_reverse w

theorem jsTrim_word_sep (w X : List Char) (hw : ∀ x ∈ w, isWs x = false)
    (hne : w ≠ []) (hX : ∃ x ∈ X, isWs x = false)
    (hXhead : X.dropWhile isWs = X) :
    jsTrim (w ++ ' ' :: X) = w ++ ' ' :: jsTrim X := by
  unfold jsTrim
  have h1 : (w ++ ' ' :: X).dropWhile isWs = w ++ ' ' :: X := by
    cases w with
    | nil => exact absurd rfl hne
    | cons c tW =>
      rw [List.cons_append]
      exact List.dropWhile_cons_of_neg (by simp [hw c (by simp)])
  rw [h1, hXhead]
  rw [show w ++ ' ' :: X = (w ++ [' ']) ++ X by simp]
  rw [trimEnd_append (w ++ [' ']) X hX]
  simp

/-- Joining the whitespace-split words of `s` with single spaces yields
exactly the whitespace-collapsed, trimmed text of `s`. -/
theorem joinWords_splitWs :
    ∀ s : List Char, joinWords (splitWs s) = jsTrim (collapseRuns s)
  | [] => rfl
  | c :: cs => by
    by_cases hc : isWs c = true
    · rw [splitWs_ws_cons cs hc, ← splitWs_dropWhile_ws cs,
          joinWords_splitWs (cs.dropWhile isWs),
          collapseRuns_ws_run cs c hc]
      unfold jsTrim
      rw [List.dropWhile_cons_of_pos (show isWs ' ' = true by decide)]
    · have hc' : isWs c = false := by
        cases hcc : isWs c
        · rfl
        · exact absurd hcc hc
      rw [splitWs_word_cons cs hc']
      have hwchars : ∀ x ∈ c :: cs.takeWhile (fun d => !isWs d), isWs x = false := by
        intro x hx
        rcases List.mem_cons.mp hx with rfl | hx
        · exact hc'
        · have := List.mem_takeWhile_imp hx
          simpa using this
      have hcr : collapseRuns (c :: cs)
          = (c :: cs.takeWhile (fun d => !isWs d))
              ++ collapseRuns (cs.dropWhile (fun d => !isWs d)) := by
        conv_lhs => rw [show c :: cs
            = (c :: cs.takeWhile (fun d => !isWs d)) ++ cs.dropWhile (fun d => !isWs d) by
          rw [List.cons_append, List.takeWhile_append_dropWhile]]
        exact collapseRuns_nonws_append _ _ hwchars
      rw [hcr]
      cases hr : cs.dropWhile (fun d => !isWs d) with
      | nil =>
        show joinWords [c :: cs.takeWhile (fun d => !isWs d)] = _
        rw [show collapseRuns [] = [] from rfl, List.append_nil,
            jsTrim_nonws _ hwchars]
        rfl
      | cons d ds =>
        have hd : isWs d = true := by
          have := dropWhile_head_not _ cs d ds hr
          simpa using this
        rw [splitWs_ws_cons ds hd, ← splitWs_dropWhile_ws ds,
            collapseRuns_ws_run ds d hd]
        cases hr2 : ds.dropWhile isWs with
        | nil =>
          show joinWords [c :: cs.takeWhile (fun d => !isWs d)] = _
          rw [show collapseRuns [] = [] from rfl]
          show c :: cs.takeWhile (fun d => !isWs d)
              = jsTrim ((c :: cs.takeWhile (fun d => !isWs d)) ++ [' '])
          rw [jsTrim_nonws_space _ hwchars (by simp)]
        | cons e es =>
          have he : isWs e = false := dropWhile_head_not isWs ds e es hr2
          have hrec := joinWords_splitWs (e :: es)
          have hXne : ∃ x ∈ collapseRuns (e :: es), isWs x = false := by
            rw [collapseRuns_nonws_cons es he]
            exact ⟨e, by simp, he⟩
          have hXts : (collapseRuns (e :: es)).dropWhile isWs
              = collapseRuns (e :: es) := by
            rw [collapseRuns_nonws_cons es he]
            exact List.dropWhile_cons_of_neg (by simp [he])
          show joinWords ((c :: cs.takeWhile (fun d => !isWs d)) :: splitWs (e :: es)) = _
          rw [splitWs_word_cons es he]
          show (c :: cs.takeWhile (fun d => !isWs d))
                ++ ' ' :: joinWords ((e :: es.takeWhile (fun d => !isWs d))
                      :: splitWs (es.dropWhile (fun d => !isWs d)))
              = _
          rw [← splitWs_word_cons es he, hrec]
          rw [jsTrim_word_sep _ _ hwchars (by simp) hXne hXts]
termination_by s => s.length
decreasing_by
  · have h1 := length_dropWhile_le isWs cs
    simp only [List.length_cons]
    omega
  · have h1 := length_dropWhile_le (fun d => !isWs d) cs
    have h2 := length_dropWhile_le isWs ds
    rw [hr] at h1
    rw [hr2] at h2
    simp only [List.length_cons] at h1 h2 ⊢
    omega

/-- Every word produced by `splitWs` is non-empty and whitespace-free. -/
theorem splitWs_words :
    ∀ s : List Char, ∀ w ∈ splitWs s, w ≠ [] ∧ ∀ x ∈ w, isWs x = false
  | [] => by
    intro w hw
    cases hw
  | c :: cs => by
    by_cases hc : isWs c = true
    · rw [splitWs_ws_cons cs hc]
      exact splitWs_words cs
    · have hc' : isWs c = false := by
        cases hcc : isWs c
        · rfl
        · exact absurd hcc hc
      rw [splitWs_word_cons cs hc']
      intro w hw
      rcases List.mem_cons.mp hw with rfl | hw
      · refine ⟨by simp, ?_⟩
        intro x hx
        rcases List.mem_cons.mp hx with rfl | hx
        · exact hc'
        · simpa using List.mem_takeWhile_imp hx
      · exact splitWs_words (cs.dropWhile (fun d => !isWs d)) w hw
termination_by s => s.length
decreasing_by
  · simp only [List.length_cons]
    omega
  · have h1 := length_dropWhile_le (fun d => !isWs d) cs
    simp only [List.length_cons]
    omega

theorem takeWhile_all {α : Type} (p : α → Bool) :
    ∀ l : List α, (∀ x ∈ l, p x = true) →
      l.takeWhile p = l ∧ l.dropWhile p = [] := by
  intro l
  induction l with
  | nil => intro _; exact ⟨rfl, rfl⟩
  | cons c cs ih =>
    intro h
    obtain ⟨h1, h2⟩ := ih (fun x hx => h x (by simp [hx]))
    rw [List.takeWhile_cons_of_pos (h c (by simp)),
        List.dropWhile_cons_of_pos (h c (by simp)), h1, h2]
    exact ⟨rfl, rfl⟩

theorem takeWhile_append_all {α : Type} (p : α → Bool) (b : List α) :
    ∀ a : List α, (∀ x ∈ a, p x = true) →
      (a ++ b).takeWhile p = a ++ b.takeWhile p
      ∧ (a ++ b).dropWhile p = b.dropWhile p := by
  intro a
  induction a with
  | nil => intro _; exact ⟨rfl, rfl⟩
  | cons c cs ih =>
    intro h
    obtain ⟨h1, h2⟩ := ih (fun x hx => h x (by simp [hx]))
    rw [List.cons_append, List.takeWhile_cons_of_pos (h c (by simp)),
        List.dropWhile_cons_of_pos (h c (by simp)), h1, h2]
    exact ⟨rfl, rfl⟩

/-- `splitWs` inverts `joinWords` on lists of non-empty whitespace-free
words. -/
theorem splitWs_joinWords :
    ∀ l : List (List Char), (∀ w ∈ l, w ≠ [] ∧ ∀ x ∈ w, isWs x = false) →
      splitWs (joinWords l) = l
  | [] => fun _ => rfl
  | [w] => by
    intro h
    obtain ⟨hne, hch⟩ := h w (by simp)
    show splitWs w = [w]
    cases w with
    | nil => exact absurd rfl hne
    | cons c w' =>
      rw [splitWs_word_cons w' (hch c (by simp))]
      obtain ⟨ht, hd⟩ := takeWhile_all (fun d => !isWs d) w'
        (fun x hx => by simp [hch x (by simp [hx])])
      rw [ht, hd]
      rfl
  | w :: w2 :: t => by
    intro h
    obtain ⟨hne, hch⟩ := h w (by simp)
    show splitWs (w ++ ' ' :: joinWords (w2 :: t)) = w :: w2 :: t
    cases w with
    | nil => exact absurd rfl hne
    | cons c w' =>
      rw [List.cons_append, splitWs_word_cons _ (hch c (by simp))]
      obtain ⟨ht, hd⟩ := takeWhile_append_all (fun d => !isWs d)
        (' ' :: joinWords (w2 :: t)) w'
        (fun x hx => by simp [hch x (by simp [hx])])
      rw [ht, hd]
      rw [@List.takeWhile_cons_of_neg Char (fun d => !isWs d) ' '
            (joinWords (w2 :: t)) (by decide)]
      rw [@List.dropWhile_cons_of_neg Char (fun d => !isWs d) ' '
            (joinWords (w2 :: t)) (by decide)]
      rw [splitWs_ws_cons _ (show isWs ' ' = true by decide)]
      rw [splitWs_joinWords (w2 :: t) (fun x hx => h x (by simp [hx]))]
      simp

/-- `splitWs` is invariant under whitespace collapsing. -/
theorem splitWs_collapse (s : List Char) : splitWs (collapse s) = splitWs s := by
  have h1 : collapse s = joinWords (splitWs s) := (joinWords_splitWs s).symm
  rw [h1]
  exact splitWs_joinWords (splitWs s) (splitWs_words s)

theorem chunkWords100_flatten :
    ∀ ws : List (List Char), (chunkWords100 ws).flatten = ws
  | [] => by rw [chunkWords100]; rfl
  | w :: ws => by
    have h1 : chunkWords100 (w :: ws)
        = (w :: ws).take 100 :: chunkWords100 (ws.drop 99) := by
      rw [chunkWords100]
    rw [h1]
    show (w :: ws).take 100 ++ (chunkWords100 (ws.drop 99)).flatten = w :: ws
    rw [chunkWords100_flatten (ws.drop 99)]
    rw [show ws.drop 99 = (w :: ws).drop 100 from rfl]
    exact List.take_append_drop 100 (w :: ws)
termination_by ws => ws.length
decreasing_by
  simp only [List.length_drop, List.length_cons]
  omega

theorem chunkWords100_mem :
    ∀ ws : List (List Char), ∀ ch ∈ chunkWords100 ws,
      ch ≠ [] ∧ ch.length ≤ 100 ∧ ∀ w ∈ ch, w ∈ ws
  | [] => by
    intro ch hch
    rw [chunkWords100] at hch
    cases hch
  | w :: ws => by
    intro ch hch
    rw [chunkWords100] at hch
    rcases List.mem_cons.mp hch with rfl | hch
    · refine ⟨by simp, ?_, fun x hx => List.take_subset _ _ hx⟩
      rw [List.length_take]
      exact min_le_left _ _
    · obtain ⟨hne, hlen, hmem⟩ := chunkWords100_mem (ws.drop 99) ch hch
      exact ⟨hne, hlen,
        fun x hx => List.mem_cons_of_mem w (List.drop_subset _ _ (hmem x hx))⟩
termination_by ws => ws.length
decreasing_by
  simp only [List.length_drop, List.length_cons]
  omega

theorem joinWords_cons_of_ne (w : List Char) (l : List (List Char)) (h : l ≠ []) :
    joinWords (w :: l) = w ++ ' ' :: joinWords l := by
  cases l with
  | nil => exact absurd rfl h
  | cons x t => rfl

theorem joinWords_ne_nil (w : List Char) (t : List (List Char)) (h : w ≠ []) :
    joinWords (w :: t) ≠ [] := by
  cases t with
  | nil => exact h
  | cons x t' =>
    rw [joinWords_cons_of_ne w (x :: t') (by simp)]
    simp

theorem joinWords_append (b : List (List Char)) (hb : b ≠ []) :
    ∀ a : List (List Char), a ≠ [] →
      joinWords (a ++ b) = joinWords a ++ ' ' :: joinWords b := by
  intro a
  induction a with
  | nil => intro h; exact absurd rfl h
  | cons w a' ih =>
    intro _
    cases a' with
    | nil =>
      rw [show ([w] ++ b) = w :: b from rfl, joinWords_cons_of_ne w b hb]
      rfl
    | cons w2 a'' =>
      rw [show ((w :: w2 :: a'') ++ b) = w :: ((w2 :: a'') ++ b) from rfl]
      rw [joinWords_cons_of_ne w ((w2 :: a'') ++ b) (by simp)]
      rw [ih (by simp)]
      rw [joinWords_cons_of_ne w (w2 :: a'') (by simp)]
      simp

theorem joinWords_flatten :
    ∀ l : List (List (List Char)), (∀ ch ∈ l, ch ≠ []) →
      joinWords (l.map joinWords) = joinWords l.flatten := by
  intro l
  induction l with
  | nil => intro _; rfl
  | cons ch t ih =>
    intro h
    cases t with
    | nil =>
      show joinWords [joinWords ch] = joinWords (ch ++ [].flatten)
      simp [joinWords]
    | cons ch2 t' =>
      have hch : ch ≠ [] := h ch (by simp)
      have hfl : (ch2 :: t').flatten ≠ [] := by
        have hch2 : ch2 ≠ [] := h ch2 (by simp)
        show ch2 ++ t'.flatten ≠ []
        simp [hch2]
      rw [show ((ch :: ch2 :: t').map joinWords)
          = joinWords ch :: ((ch2 :: t').map joinWords) from rfl]
      rw [joinWords_cons_of_ne _ _ (by simp)]
      rw [ih (fun x hx => h x (by simp [hx]))]
      rw [show ((ch :: ch2 :: t').flatten) = ch ++ (ch2 :: t').flatten from rfl]
      rw [joinWords_append ((ch2 :: t').flatten) hfl ch hch]

/-- C6 counterexample: the claim is false on the code.  For the sentence
partitioner `chunkTextForTts` with the configured bound 100, a non-empty
answer consisting of a single 101-character word is returned as one unit of
length 101, exceeding the configured size bound. -/
theorem c6_counterexample :
    chunkTextForTts (List.replicate 101 'a') 100 = [List.replicate 101 'a']
    ∧ (List.replicate 101 'a').length = 101
    ∧ ¬ (101 ≤ 100) := by
  refine ⟨by decide, by decide, by decide⟩

/-- C6 (amended): the reconstruction/bound/non-emptiness properties hold for
the word-block partitioner `partitionAnswerForTts` (the one used by the live
answer pipeline, bound = 100 words): joining the units with single spaces
reconstructs the whitespace-collapsed original text, every unit is non-empty
and contains at most 100 words, and an empty or whitespace-only answer
yields zero units.  (For `chunkTextForTts` the character bound can be
exceeded by a single overlong word — see the counterexample.) -/
theorem c6_partition (fullText : List Char) :
    joinWords (partitionAnswerForTts fullText) = collapse fullText
    ∧ (∀ u ∈ partitionAnswerForTts fullText,
        u ≠ [] ∧ (splitWs u).length ≤ maxWordsPerPart)
    ∧ (collapse fullText = [] ↔ partitionAnswerForTts fullText = []) := by
  by_cases h0 : collapse fullText = []
  · have hp : partitionAnswerForTts fullText = [] := by
      simp only [partitionAnswerForTts]
      rw [if_pos h0]
    rw [hp, h0]
    exact ⟨rfl, by simp, by simp⟩
  · by_cases hlen : (splitWs (collapse fullText)).length ≤ maxWordsPerPart
    · have hp : partitionAnswerForTts fullText = [collapse fullText] := by
        simp only [partitionAnswerForTts]
        rw [if_neg h0, if_pos hlen]
      rw [hp]
      refine ⟨rfl, ?_, ?_⟩
      · intro u hu
        rcases List.mem_cons.mp hu with rfl | hu
        · exact ⟨h0, hlen⟩
        · cases hu
      · exact ⟨fun h => absurd h h0, fun h => absurd h (by simp)⟩
    · have hp : partitionAnswerForTts fullText
          = (chunkWords100 (splitWs (collapse fullText))).map joinWords := by
        simp only [partitionAnswerForTts]
        rw [if_neg h0, if_neg hlen]
      have hwords : ∀ w ∈ splitWs (collapse fullText),
          w ≠ [] ∧ ∀ x ∈ w, isWs x = false := splitWs_words (collapse fullText)
      have hchunks := chunkWords100_mem (splitWs (collapse fullText))
      rw [hp]
      refine ⟨?_, ?_, ?_⟩
      · rw [joinWords_flatten (chunkWords100 (splitWs (collapse fullText)))
            (fun ch hch => (hchunks ch hch).1)]
        rw [chunkWords100_flatten]
        rw [splitWs_collapse]
        exact (joinWords_splitWs fullText)
      · intro u hu
        obtain ⟨ch, hch, rfl⟩ := List.mem_map.mp hu
        obtain ⟨hchne, hchlen, hchmem⟩ := hchunks ch hch
        have hchwords : ∀ w ∈ ch, w ≠ [] ∧ ∀ x ∈ w, isWs x = false :=
          fun w hw => hwords w (hchmem w hw)
        constructor
        · cases ch with
          | nil => exact absurd rfl hchne
          | cons w t => exact joinWords_ne_nil w t (hchwords w (by simp)).1
        · rw [splitWs_joinWords ch hchwords]
          exact hchlen
      · refine ⟨fun h => absurd h h0, fun h => ?_⟩
        exfalso
        cases hws : splitWs (collapse fullText) with
        | nil =>
          rw [hws] at hlen
          exact hlen (by simp [maxWordsPerPart])
        | cons w ws =>
          rw [hws] at h
          rw [show chunkWords100 (w :: ws)
              = (w :: ws).take 100 :: chunkWords100 (ws.drop 99) by rw [chunkWords100]] at h
          cases h

theorem c6_partition_witness :
    joinWords (partitionAnswerForTts ('h' :: 'i' :: ' ' :: ' ' :: 'y' :: 'o' :: []))
        = collapse ('h' :: 'i' :: ' ' :: ' ' :: 'y' :: 'o' :: [])
    ∧ (('h' :: 'i' :: ' ' :: 'y' :: 'o' :: [])
          ∈ partitionAnswerForTts ('h' :: 'i' :: ' ' :: ' ' :: 'y' :: 'o' :: [])
        → ('h' :: 'i' :: ' ' :: 'y' :: 'o' :: []) ≠ []
          ∧ (splitWs ('h' :: 'i' :: ' ' :: 'y' :: 'o' :: [])).length ≤ maxWordsPerPart)
    ∧ (collapse ('h' :: 'i' :: ' ' :: ' ' :: 'y' :: 'o' :: []) = []
        ↔ partitionAnswerForTts ('h' :: 'i' :: ' ' :: ' ' :: 'y' :: 'o' :: []) = []) := by
  have h := c6_partition ('h' :: 'i' :: ' ' :: ' ' :: 'y' :: 'o' :: [])
  exact ⟨h.1, h.2.1 ('h' :: 'i' :: ' ' :: 'y' :: 'o' :: []), h.2.2⟩

end Vach
